import Mathlib

/-!
# auto-image-namer: the analysis queue of `server.js`

A shallow embedding of the queue worker (`processQueue`,
`processAnalysisFiles`), the queue endpoints (`POST /analyze`,
`DELETE /api/queue/:id`) and the result store (`saveAnalysis`,
`getRecentAnalyses`, `cleanupOldAnalyses`, `GET /api/analyses/:id`).

JavaScript objects are compared by identity in two places of the source, so
uploaded files and queue items carry their object reference (`ref`).
Asynchronous code is cut at its `await`s: what runs between two suspension
points is one atomic function on the server state.
-/

namespace AutoImageNamer

/-! ## Data model -/

/-- One uploaded image as multer hands it over (`req.files[k]`). `ref` is
the identity of the JavaScript object, which `file !== batch[...]` compares. -/
structure File where
  ref : Nat
  originalname : String
  mimetype : String
  buffer : List Nat
  deriving DecidableEq, Repr

/-- One element of the `results` array. `error` is `true` exactly when the
object literal carries the property `error: true`. -/
structure Result where
  original : String
  analysis : String
  error : Bool
  deriving DecidableEq, Repr

/-- The `status` strings of a queue item. -/
inductive Status where
  | queued
  | processing
  | completed
  | failed
  deriving DecidableEq, Repr

/-- A queue item (`analysisItem`), with the fields `processQueue` adds later.
`ref` is the identity of the object that `currentAnalysis` points to. -/
structure Job where
  ref : Nat
  id : String
  name : String
  timestamp : String
  analysisMode : String
  files : List File
  status : Status
  results : Option (List Result)
  textOutput : Option String
  error : Option String
  deriving DecidableEq, Repr

/-! ## processAnalysisFiles -/

/-- The two external analysis functions. The first argument is the number of
analysis calls already made in this run, so that the same file may be answered
differently by different calls; `Except.error` is a thrown exception. -/
structure Providers where
  analyzeSonarPro : Nat → File → Bool → Except String String
  analyzeOpenAI : Nat → File → Bool → Except String String

/-- What `processAnalysisFiles` does to the outside world, in order:
the `Processing batch k of m` log line (with the batch it announces), an
analysis call, a `delay(ms)`. -/
inductive Event where
  | batch (number total : Nat) (files : List File)
  | call (file : File)
  | delay (ms : Nat)
  deriving DecidableEq, Repr

/-- The local state of one run: the `results` array, the effects so far and
the number of analysis calls made. -/
structure RunState where
  results : List Result
  trace : List Event
  calls : Nat
  deriving DecidableEq, Repr

def BATCH_SIZE : Nat := 5

def DELAY_BETWEEN_BATCHES : Nat := 2000

def DELAY_BETWEEN_REQUESTS : Nat := 500

/-- The statement `results.push(r)`. -/
def pushResult (r : Result) (st : RunState) : RunState :=
  { st with results := st.results ++ [r] }

/-- The statement `await delay(ms)`; the timer promise cannot reject. -/
def delay (ms : Nat) (st : RunState) : RunState :=
  { st with trace := st.trace ++ [Event.delay ms] }

/-- The text pushed by the `catch` block of the per-image `try`. -/
def errorAnalysis (originalname : String) : String :=
  "**Original:** " ++ originalname ++
    "\n**Error:** Unable to process this image\n**Description:** Error occurred during analysis\n**Website Usage:** N/A\n**Professional Assessment:** Could not assess due to processing error"

/-- The method `s.startsWith(pre)`: `pre` is an initial segment of `s`. -/
def startsWith (s pre : String) : Bool :=
  pre.data.isPrefixOf s.data

/-- The provider dispatch of lines 230-234: the call made for `file` when
`calls` calls were made before it. -/
def analyze (P : Providers) (analysisMode : String) (calls : Nat) (file : File) :
    Except String String :=
  if startsWith analysisMode "sonar" then
    P.analyzeSonarPro calls file (analysisMode == "sonar-web")
  else
    P.analyzeOpenAI calls file (analysisMode == "openai-advanced")

/-- The body of the per-image `try` block: the call, the push of the success
result, and the inter-request delay unless `file` is the last object of the
batch. A throw leaves the state as it was when the call threw. -/
def tryBody (P : Providers) (analysisMode : String) (batch : List File) (file : File)
    (st : RunState) : Except String Unit × RunState :=
  let st1 : RunState := { st with trace := st.trace ++ [Event.call file], calls := st.calls + 1 }
  match analyze P analysisMode st.calls file with
  | Except.error e => (Except.error e, st1)
  | Except.ok analysis =>
    let st2 := pushResult { original := file.originalname, analysis := analysis, error := false } st1
    if batch.getLast?.map File.ref != some file.ref then
      (Except.ok (), delay DELAY_BETWEEN_REQUESTS st2)
    else
      (Except.ok (), st2)

/-- One iteration of `for (const file of batch)`: the `try` block with its
`catch`, which pushes the placeholder result. -/
def processFile (P : Providers) (analysisMode : String) (batch : List File) (file : File)
    (st : RunState) : Except String Unit × RunState :=
  match tryBody P analysisMode batch file st with
  | (Except.ok (), st1) => (Except.ok (), st1)
  | (Except.error _, st1) =>
    (Except.ok (),
      pushResult { original := file.originalname,
                   analysis := errorAnalysis file.originalname, error := true } st1)

/-- The loop `for (const file of batch)` over the files still to visit. An
exception that escapes an iteration ends the loop. -/
def forBatch (P : Providers) (analysisMode : String) (batch : List File) :
    List File → RunState → Except String Unit × RunState
  | [], st => (Except.ok (), st)
  | file :: rest, st =>
    match processFile P analysisMode batch file st with
    | (Except.ok (), st1) => forBatch P analysisMode batch rest st1
    | (Except.error e, st1) => (Except.error e, st1)

/-- The expression `files.slice(i, j)` for `0 ≤ i ≤ j`. -/
def slice (files : List File) (i j : Nat) : List File :=
  (files.drop i).take (j - i)

/-- The loop `for (let i = 0; i < files.length; i += BATCH_SIZE)` from index
`i` on, with `fuel` bounding the number of iterations; `none` is a loop that
did not finish within the fuel. -/
def batchLoop (P : Providers) (analysisMode : String) (files : List File) :
    Nat → Nat → RunState → Option (Except String Unit × RunState)
  | fuel, i, st =>
    if i < files.length then
      match fuel with
      | 0 => none
      | fuel + 1 =>
        let batch := slice files i (i + BATCH_SIZE)
        let st0 : RunState :=
          { st with trace := st.trace ++
              [Event.batch (i / BATCH_SIZE + 1)
                ((files.length + BATCH_SIZE - 1) / BATCH_SIZE) batch] }
        match forBatch P analysisMode batch batch st0 with
        | (Except.error e, st1) => some (Except.error e, st1)
        | (Except.ok (), st1) =>
          if i + BATCH_SIZE < files.length then
            batchLoop P analysisMode files fuel (i + BATCH_SIZE) (delay DELAY_BETWEEN_BATCHES st1)
          else
            batchLoop P analysisMode files fuel (i + BATCH_SIZE) st1
    else
      some (Except.ok (), st)

/-- The function `processAnalysisFiles(analysisItem)`: the returned `results`
(or the exception thrown) and the final run state. The loop is given
`files.length` iterations, which it never exhausts. -/
def processAnalysisFiles (P : Providers) (analysisItem : Job) :
    Option (Except String (List Result) × RunState) :=
  match batchLoop P analysisItem.analysisMode analysisItem.files analysisItem.files.length 0
      { results := [], trace := [], calls := 0 } with
  | none => none
  | some (Except.error e, st) => some (Except.error e, st)
  | some (Except.ok (), st) => some (Except.ok st.results, st)

/-! ## Closed forms of a run -/

/-- The result pushed for `file` when its analysis call had outcome `o`. -/
def resultOf (o : Except String String) (file : File) : Result :=
  match o with
  | Except.ok analysis => { original := file.originalname, analysis := analysis, error := false }
  | Except.error _ =>
    { original := file.originalname, analysis := errorAnalysis file.originalname, error := true }

/-- The results of the files `fs` when `k` calls were made before them. -/
def resultsFrom (P : Providers) (analysisMode : String) : Nat → List File → List Result
  | _, [] => []
  | k, file :: rest =>
    resultOf (analyze P analysisMode k file) file :: resultsFrom P analysisMode (k + 1) rest

/-- The effects of one iteration of the per-image loop. -/
def fileEvents (P : Providers) (analysisMode : String) (batch : List File) (k : Nat)
    (file : File) : List Event :=
  match analyze P analysisMode k file with
  | Except.ok _ =>
    if batch.getLast?.map File.ref != some file.ref then
      [Event.call file, Event.delay DELAY_BETWEEN_REQUESTS]
    else [Event.call file]
  | Except.error _ => [Event.call file]

/-- The effects of the per-image loop over `fs`. -/
def batchEvents (P : Providers) (analysisMode : String) (batch : List File) :
    Nat → List File → List Event
  | _, [] => []
  | k, file :: rest =>
    fileEvents P analysisMode batch k file ++ batchEvents P analysisMode batch (k + 1) rest

/-- The effects of the batch loop from index `i` on, when `k` calls were made
before; `fuel` bounds the number of batches. -/
def loopEvents (P : Providers) (analysisMode : String) (files : List File) :
    Nat → Nat → Nat → List Event
  | 0, _, _ => []
  | fuel + 1, i, k =>
    if i < files.length then
      Event.batch (i / BATCH_SIZE + 1) ((files.length + BATCH_SIZE - 1) / BATCH_SIZE)
          (slice files i (i + BATCH_SIZE)) ::
        (batchEvents P analysisMode (slice files i (i + BATCH_SIZE)) k
            (slice files i (i + BATCH_SIZE)) ++
          ((if i + BATCH_SIZE < files.length then [Event.delay DELAY_BETWEEN_BATCHES] else []) ++
            loopEvents P analysisMode files fuel (i + BATCH_SIZE)
              (k + (slice files i (i + BATCH_SIZE)).length)))
    else []

/-! ## The result store -/

/-- The object `analysisData` that `processQueue` hands to `saveAnalysis`, and
the document a saved file holds. `JSON.parse(JSON.stringify(d))` gives back
every field of such an object, so a file is modelled by the object written. -/
structure AnalysisData where
  id : String
  name : String
  timestamp : String
  analysisMode : String
  results : List Result
  status : Status
  textOutput : String
  deriving DecidableEq, Repr

/-- One entry of the directory `saved-analyses`: file name, modification time
(`stats.mtime.getTime()`, in ms) and content; `none` is a content that
`JSON.parse` rejects. -/
structure DirEntry where
  name : String
  mtime : Int
  content : Option AnalysisData
  deriving DecidableEq, Repr

/-- Which file-system calls fail (reject their promise): `true` is a failure.
`fs.writeFile` opens its file with flag `w`, which creates or empties it, and
then writes; `writeFileOpens` tells whether a failing `fs.writeFile` fails
after the open (a full disk) rather than at the open (a read-only disk, a
missing directory). -/
structure FsFaults where
  readdir : Bool
  stat : String → Bool
  readFile : String → Bool
  unlink : String → Bool
  writeFile : String → Bool
  writeFileOpens : String → Bool

/-- The constant `24 * 60 * 60 * 1000`. -/
def DAY_MS : Int := 24 * 60 * 60 * 1000

/-- The call `s.replace(/[:.]/g, '-')`. -/
def replaceColonDot (s : String) : String :=
  ⟨s.data.map (fun c => if c.toNat = 58 ∨ c.toNat = 46 then Char.ofNat 45 else c)⟩

/-- The characters that `\s` matches. -/
def isWhiteSpace (c : Char) : Bool :=
  decide (c.toNat ∈ [9, 10, 11, 12, 13, 32, 160, 5760, 8232, 8233, 8239, 8287, 12288, 65279]) ||
    (decide (8192 ≤ c.toNat) && decide (c.toNat ≤ 8202))

/-- The characters that `[a-z0-9\s-]` matches under the flag `i`. -/
def isSafeChar (c : Char) : Bool :=
  c.isLower || c.isUpper || c.isDigit || isWhiteSpace c || decide (c.toNat = 45)

/-- The call `s.replace(/\s+/g, '-')` on the characters of `s`; `inRun` tells
that the character before was white space. -/
def collapseSpaces : Bool → List Char → List Char
  | _, [] => []
  | inRun, c :: cs =>
    if isWhiteSpace c then
      if inRun then collapseSpaces true cs else Char.ofNat 45 :: collapseSpaces true cs
    else c :: collapseSpaces false cs

/-- The constant `safeName` of `saveAnalysis`. -/
def safeName (name : String) : String :=
  if name.data.isEmpty then "unnamed-analysis"
  else ⟨collapseSpaces false (name.data.filter isSafeChar)⟩

/-- The constant `filename` of `saveAnalysis`; `iso` is
`new Date().toISOString()`. -/
def saveFilename (iso : String) (analysisData : AnalysisData) : String :=
  replaceColonDot iso ++ "_" ++ safeName analysisData.name ++ ".json"

/-- The call `fs.writeFile(path.join(SAVED_ANALYSES_DIR, name), ...)` at time
`now`: the file is created or replaced. -/
def writeFile (name : String) (now : Int) (content : AnalysisData) (dir : List DirEntry) :
    List DirEntry :=
  dir.filter (fun e => e.name != name) ++ [{ name := name, mtime := now, content := some content }]

/-- What a call `fs.writeFile(path.join(SAVED_ANALYSES_DIR, name), ...)` leaves
behind when it fails after it has opened the file: the file exists, empty or
cut short, and `JSON.parse` rejects its content. -/
def truncateFile (name : String) (now : Int) (dir : List DirEntry) : List DirEntry :=
  dir.filter (fun e => e.name != name) ++ [{ name := name, mtime := now, content := none }]

/-- The function `saveAnalysis(analysisData)`, run at time `now` whose ISO
string is `iso`: the file name returned (or the exception) and the directory
afterwards. -/
def saveAnalysis (F : FsFaults) (iso : String) (now : Int) (analysisData : AnalysisData)
    (dir : List DirEntry) : Except String String × List DirEntry :=
  let filename := saveFilename iso analysisData
  if F.writeFile filename then
    (Except.error "writeFile failed",
      if F.writeFileOpens filename then truncateFile filename now dir else dir)
  else (Except.ok filename, writeFile filename now analysisData dir)

/-- The method `s.endsWith(suf)`. -/
def endsWith (s suf : String) : Bool :=
  suf.data.isSuffixOf s.data

/-- The call `s.replace(pat, '')` with a string pattern: the first occurrence of
`pat` is removed. -/
def removeFirst (pat : List Char) : List Char → List Char
  | [] => []
  | c :: cs => if pat.isPrefixOf (c :: cs) then (c :: cs).drop pat.length
               else c :: removeFirst pat cs

/-- The expression `file.replace('.json', '')`. -/
def stripJson (file : String) : String :=
  ⟨removeFirst ".json".data file.data⟩

/-- One element of the array `getRecentAnalyses` returns. -/
structure Summary where
  id : String
  name : String
  timestamp : String
  imageCount : Nat
  status : Status
  deriving DecidableEq, Repr

/-- The lookup of a file of the directory by name. -/
def lookupFile (dir : List DirEntry) (name : String) : Option DirEntry :=
  dir.find? (fun e => e.name == name)

/-- The loop `for (const file of files)` of `getRecentAnalyses` with the
array `analyses` it fills; an exception ends it. -/
def recentLoop (F : FsFaults) (twentyFourHoursAgo : Int) (dir : List DirEntry) :
    List String → List Summary → Except String (List Summary)
  | [], analyses => Except.ok analyses
  | file :: rest, analyses =>
    if endsWith file ".json" then
      if F.stat file then Except.error "stat failed"
      else match lookupFile dir file with
        | none => Except.error "ENOENT"
        | some stats =>
          if stats.mtime > twentyFourHoursAgo then
            if F.readFile file then Except.error "readFile failed"
            else match stats.content with
              | none => Except.error "JSON.parse failed"
              | some data =>
                recentLoop F twentyFourHoursAgo dir rest
                  (analyses ++ [{ id := stripJson file,
                                  name := if data.name.data.isEmpty then "Unnamed Analysis"
                                          else data.name,
                                  timestamp := data.timestamp,
                                  imageCount := data.results.length,
                                  status := data.status }])
          else recentLoop F twentyFourHoursAgo dir rest analyses
    else recentLoop F twentyFourHoursAgo dir rest analyses

/-- The comparator `(a, b) => new Date(b.timestamp) - new Date(a.timestamp)`;
`dateOf` is `new Date(s).getTime()`, with `none` for an invalid date, and a
`NaN` difference counts as 0. -/
def compareTimestamps (dateOf : String → Option Int) (a b : Summary) : Int :=
  match dateOf b.timestamp, dateOf a.timestamp with
  | some tb, some ta => tb - ta
  | _, _ => 0

/-- The insertion of `a` into a sorted array, before the first element it
does not come after. -/
def insertSorted (cmp : Summary → Summary → Int) (a : Summary) : List Summary → List Summary
  | [] => [a]
  | b :: rest => if cmp a b ≤ 0 then a :: b :: rest else b :: insertSorted cmp a rest

/-- The method `analyses.sort(cmp)`, a stable sort. When every timestamp
parses, the comparator is a consistent order and this is the order of
`Array.prototype.sort`; with an unparsable timestamp the comparator is not
consistent and the language leaves the order to the engine, so only the
elements of the result, not their order, are those of the code. -/
def sortSummaries (cmp : Summary → Summary → Int) : List Summary → List Summary
  | [] => []
  | a :: rest => insertSorted cmp a (sortSummaries cmp rest)

/-- The function `getRecentAnalyses()` at time `now`. -/
def getRecentAnalyses (F : FsFaults) (dateOf : String → Option Int) (now : Int)
    (dir : List DirEntry) : List Summary :=
  if F.readdir then []
  else
    match recentLoop F (now - DAY_MS) dir (dir.map DirEntry.name) [] with
    | Except.ok analyses => sortSummaries (compareTimestamps dateOf) analyses
    | Except.error _ => []

/-- The loop `for (const file of files)` of `cleanupOldAnalyses` on the
directory; an exception ends it and leaves the directory as it is then. -/
def cleanupLoop (F : FsFaults) (twentyFourHoursAgo : Int) :
    List String → List DirEntry → List DirEntry
  | [], dir => dir
  | file :: rest, dir =>
    if endsWith file ".json" then
      if F.stat file then dir
      else match lookupFile dir file with
        | none => dir
        | some stats =>
          if stats.mtime < twentyFourHoursAgo then
            if F.unlink file then dir
            else cleanupLoop F twentyFourHoursAgo rest (dir.filter (fun e => e.name != file))
          else cleanupLoop F twentyFourHoursAgo rest dir
    else cleanupLoop F twentyFourHoursAgo rest dir

/-- The function `cleanupOldAnalyses()` at time `now`: the directory it
leaves. -/
def cleanupOldAnalyses (F : FsFaults) (now : Int) (dir : List DirEntry) : List DirEntry :=
  if F.readdir then dir
  else cleanupLoop F (now - DAY_MS) (dir.map DirEntry.name) dir

/-- The handler of `GET /api/analyses/:id`: the document sent, or the
exception that the handler answers with 404. -/
def getAnalysis (F : FsFaults) (dir : List DirEntry) (id : String) :
    Except String AnalysisData :=
  if F.readFile (id ++ ".json") then Except.error "readFile failed"
  else match lookupFile dir (id ++ ".json") with
    | none => Except.error "ENOENT"
    | some e => match e.content with
      | none => Except.error "JSON.parse failed"
      | some data => Except.ok data

/-! ## The queue -/

/-- The module state of `server.js` that the queue uses. `current` is the
reference `currentAnalysis` of the `processQueue` call that is suspended at an
`await`, `timers` counts the pending `setTimeout(processQueue, 1000)`
callbacks, `nextRef` is the reference of the next object created. -/
structure ServerState where
  analysisQueue : List Job
  isProcessing : Bool
  current : Option Nat
  timers : Nat
  nextRef : Nat
  deriving DecidableEq, Repr

/-- The state at start-up: `analysisQueue = []`, `isProcessing = false`. -/
def initialState : ServerState :=
  { analysisQueue := [], isProcessing := false, current := none, timers := 0, nextRef := 0 }

/-- An assignment to fields of the object with reference `r`: every place of
the queue that holds this object sees it. -/
def updateRef (r : Nat) (f : Job → Job) (queue : List Job) : List Job :=
  queue.map (fun j => if j.ref = r then f j else j)

/-- The function `processQueue()` up to its first `await`: the guard, the
busy flag, and `currentAnalysis.status = 'processing'`. -/
def processQueue (s : ServerState) : ServerState :=
  if s.isProcessing || s.analysisQueue.length == 0 then s
  else
    match s.analysisQueue.head? with
    | none => s
    | some currentAnalysis =>
      { s with
        isProcessing := true
        current := some currentAnalysis.ref
        analysisQueue :=
          updateRef currentAnalysis.ref (fun j => { j with status := Status.processing })
            s.analysisQueue }

/-- The function `generateTextOutput(results)`. -/
def generateTextOutput (results : List Result) : String :=
  "Added the folder to the project with images in it. use the below to rename the images and put them in relevant spots on the site. Replace images and adjust content as necessary. Ensure you move the images to the proper location within the project so they show up\n\n" ++
    "\n\n---\n\n".intercalate (results.map Result.analysis)

/-- The `try` block of `processQueue` from the call of
`processAnalysisFiles` to the return of `saveAnalysis`: the results and text
output to store on the queue item, or the exception caught, and the directory
afterwards. -/
def processQueueTry (P : Providers) (F : FsFaults) (iso : String) (now : Int)
    (dir : List DirEntry) (currentAnalysis : Job) :
    Option (Except String (List Result × String) × List DirEntry) :=
  match processAnalysisFiles P currentAnalysis with
  | none => none
  | some (Except.error e, _) => some (Except.error e, dir)
  | some (Except.ok results, _) =>
    let analysisData : AnalysisData :=
      { id := currentAnalysis.id
        name := currentAnalysis.name
        timestamp := currentAnalysis.timestamp
        analysisMode := currentAnalysis.analysisMode
        results := results
        status := Status.completed
        textOutput := generateTextOutput results }
    match saveAnalysis F iso now analysisData dir with
    | (Except.error e, dir1) => some (Except.error e, dir1)
    | (Except.ok _, dir1) => some (Except.ok (results, analysisData.textOutput), dir1)

/-- The assignments to `currentAnalysis` that end the `try` block, or those
of the `catch` block. -/
def settle (outcome : Except String (List Result × String)) (j : Job) : Job :=
  match outcome with
  | Except.ok (results, textOutput) =>
    { j with status := Status.completed, results := some results, textOutput := some textOutput }
  | Except.error message => { j with status := Status.failed, error := some message }

/-- The function `processQueue()` from its last `await` on, when the `try`
block ended with `outcome`: the status of the item, `analysisQueue.shift()`,
the busy flag and the timer for the next call. -/
def processQueueFinish (outcome : Except String (List Result × String)) (s : ServerState) :
    ServerState :=
  match s.current with
  | none => s
  | some r =>
    { s with
      analysisQueue := (updateRef r (settle outcome) s.analysisQueue).tail
      isProcessing := false
      current := none
      timers := s.timers + 1 }

/-- The body of an answer of `POST /analyze` and of `DELETE /api/queue/:id`. -/
structure Response where
  status : Nat
  analysisId : Option String
  queuePosition : Option Nat
  message : String
  deriving DecidableEq, Repr

/-- The expression `x || d` for a string or missing field `x`. -/
def orDefault (x : Option String) (d : String) : String :=
  match x with
  | none => d
  | some v => if v.data.isEmpty then d else v

/-- The handler of `POST /analyze`. `uuid` is the value of `uuidv4()` and
`iso` that of `new Date().toISOString()`. -/
def postAnalyze (files : List File) (analysisMode analysisName : Option String)
    (uuid iso : String) (s : ServerState) : Response × ServerState :=
  if files.length == 0 then
    ({ status := 400, analysisId := none, queuePosition := none,
       message := "No images uploaded" }, s)
  else
    let analysisItem : Job :=
      { ref := s.nextRef
        id := uuid
        name := orDefault analysisName ""
        timestamp := iso
        analysisMode := orDefault analysisMode "sonar"
        files := files
        status := Status.queued
        results := none
        textOutput := none
        error := none }
    let s1 : ServerState :=
      { s with analysisQueue := s.analysisQueue ++ [analysisItem], nextRef := s.nextRef + 1 }
    let s2 : ServerState := if !s1.isProcessing then processQueue s1 else s1
    ({ status := 200
       analysisId := some analysisItem.id
       queuePosition := some s2.analysisQueue.length
       message :=
         if s2.analysisQueue.length == 1 then "Analysis started"
         else "Analysis queued at position " ++ toString s2.analysisQueue.length },
     s2)

/-- The method `analysisQueue.findIndex(p)`, with `none` for -1. -/
def findIndex (p : Job → Bool) : List Job → Option Nat
  | [] => none
  | j :: rest => if p j then some 0 else (findIndex p rest).map (fun k => k + 1)

/-- The handler of `DELETE /api/queue/:id`. -/
def deleteQueueItem (analysisId : String) (s : ServerState) : Response × ServerState :=
  match findIndex (fun item => item.id == analysisId) s.analysisQueue with
  | none =>
    ({ status := 404, analysisId := none, queuePosition := none,
       message := "Analysis not found in queue" }, s)
  | some itemIndex =>
    match s.analysisQueue[itemIndex]? with
    | none =>
      ({ status := 500, analysisId := none, queuePosition := none,
         message := "Cannot read properties of undefined" }, s)
    | some item =>
      if item.status == Status.processing then
        ({ status := 400, analysisId := none, queuePosition := none,
           message := "Cannot remove analysis that is currently processing" }, s)
      else
        ({ status := 200, analysisId := none, queuePosition := none,
           message := "Analysis \"" ++ orDefault (some item.name) "Unnamed" ++
             "\" removed from queue" },
         { s with analysisQueue := s.analysisQueue.eraseIdx itemIndex })

/-- One step of the server: a request, a call of `processQueue`, the end of
the running `processQueue` call, or a timer that fires. -/
inductive Step : ServerState → ServerState → Prop where
  | submit (s : ServerState) (files : List File) (analysisMode analysisName : Option String)
      (uuid iso : String) :
      Step s (postAnalyze files analysisMode analysisName uuid iso s).2
  | remove (s : ServerState) (analysisId : String) :
      Step s (deleteQueueItem analysisId s).2
  | start (s : ServerState) : Step s (processQueue s)
  | finish (s : ServerState) (outcome : Except String (List Result × String))
      (h : s.current.isSome = true) : Step s (processQueueFinish outcome s)
  | timer (s : ServerState) (h : 0 < s.timers) :
      Step s (processQueue { s with timers := s.timers - 1 })

/-- The states the server can be in. -/
inductive Reachable : ServerState → Prop where
  | init : Reachable initialState
  | step {s t : ServerState} (hs : Reachable s) (h : Step s t) : Reachable t

/-- The number of queue items with status `processing`. -/
def processingCount (queue : List Job) : Nat :=
  (queue.filter (fun j => j.status == Status.processing)).length

/-- The outcomes of the analysis calls for the files `fs`, in call order, when
`k` calls were made before them. -/
def callOutcomes (P : Providers) (analysisMode : String) : Nat → List File →
    List (Except String String)
  | _, [] => []
  | k, file :: rest => analyze P analysisMode k file :: callOutcomes P analysisMode (k + 1) rest

/-- An analysis call that threw. -/
def threw : Except String String → Bool
  | Except.error _ => true
  | Except.ok _ => false

/-- A provider pair whose call number `bad` throws and whose other calls
return the text `"ok"`. -/
def failingAt (bad : Nat) : Providers :=
  { analyzeSonarPro := fun k _ _ => if k = bad then Except.error "timeout" else Except.ok "ok"
    analyzeOpenAI := fun k _ _ => if k = bad then Except.error "timeout" else Except.ok "ok" }

/-- A file system without failures. -/
def noFaults : FsFaults :=
  { readdir := false
    stat := fun _ => false
    readFile := fun _ => false
    unlink := fun _ => false
    writeFile := fun _ => false
    writeFileOpens := fun _ => false }

/-- An uploaded file with reference `r` and name `name`. -/
def sampleFile (r : Nat) (name : String) : File :=
  { ref := r, originalname := name, mimetype := "image/png", buffer := [] }

/-- A queued job with reference `r`, id `id` and the given files, in mode
`sonar`. -/
def sampleJob (r : Nat) (id : String) (files : List File) : Job :=
  { ref := r, id := id, name := "", timestamp := "1970-01-01T00:00:00.000Z",
    analysisMode := "sonar", files := files, status := Status.queued,
    results := none, textOutput := none, error := none }

/-- The objects of the queue are distinct and were created before the next
reference to be given out. -/
def WellFormed (s : ServerState) : Prop :=
  (s.analysisQueue.map Job.ref).Nodup ∧ ∀ j ∈ s.analysisQueue, j.ref < s.nextRef

instance (s : ServerState) : Decidable (WellFormed s) := by
  unfold WellFormed
  exact inferInstance

/-- The invariant of the queue: while `isProcessing` is set, the running call
holds the head of the queue, which alone has status `processing`; otherwise no
call is running and every item has status `queued`. -/
def QueueInv (s : ServerState) : Prop :=
  WellFormed s ∧
    ((s.isProcessing = true ∧ ∃ (cur : Job) (rest : List Job),
        s.analysisQueue = cur :: rest ∧ s.current = some cur.ref ∧
        cur.status = Status.processing ∧ ∀ j ∈ rest, j.status = Status.queued) ∨
     (s.isProcessing = false ∧ s.current = none ∧
        ∀ j ∈ s.analysisQueue, j.status = Status.queued))

/-- The object literal `analysisItem` that `POST /analyze` creates in state
`s`. -/
def newItem (files : List File) (analysisMode analysisName : Option String)
    (uuid iso : String) (s : ServerState) : Job :=
  { ref := s.nextRef
    id := uuid
    name := orDefault analysisName ""
    timestamp := iso
    analysisMode := orDefault analysisMode "sonar"
    files := files
    status := Status.queued
    results := none
    textOutput := none
    error := none }

/-- The state after `analysisQueue.push(analysisItem)`. -/
def pushItem (item : Job) (s : ServerState) : ServerState :=
  { s with analysisQueue := s.analysisQueue ++ [item], nextRef := s.nextRef + 1 }

/-- The state after one submission to the server just started: the job is
being processed. -/
def oneRunning : ServerState :=
  (postAnalyze [sampleFile 0 "a.png"] none none "job-1" "1970-01-01T00:00:00.000Z"
    initialState).2

/-- The state after a second submission: one job running, one waiting. -/
def oneRunningOneQueued : ServerState :=
  (postAnalyze [sampleFile 1 "b.png"] none none "job-2" "1970-01-01T00:00:01.000Z"
    oneRunning).2

/-- The state after the first job has finished: the second job waits, the
worker is idle and the timer for the next call of `processQueue` is pending. -/
def oneWaiting : ServerState :=
  processQueueFinish (Except.ok ([], "")) oneRunningOneQueued

/-- A clock (`new Date(s).getTime()`) that knows the epoch only. -/
def epochDate (s : String) : Option Int :=
  if s = "1970-01-01T00:00:00.000Z" then some 0 else none

/-- A directory with one record: the job was submitted at the epoch and its
file was written 25 hours later. -/
def lateDir : List DirEntry :=
  [{ name := "1970-01-02T01-00-00-000Z_shots.json"
     mtime := 90000000
     content := some { id := "job-1", name := "shots", timestamp := "1970-01-01T00:00:00.000Z",
                       analysisMode := "sonar", results := [], status := Status.completed,
                       textOutput := "" } }]

/-! ## Pacing of a run -/

/-- The batches that the log lines of a trace announce, in order. -/
def batchesOf : List Event → List (List File)
  | [] => []
  | Event.batch _ _ files :: rest => files :: batchesOf rest
  | Event.call _ :: rest => batchesOf rest
  | Event.delay _ :: rest => batchesOf rest

/-- The number of `delay(ms)` calls in a trace. -/
def delayCount (ms : Nat) (trace : List Event) : Nat :=
  (trace.filter (fun e => e == Event.delay ms)).length

/-- A trace without its inter-request delays. -/
def withoutRequestDelays (trace : List Event) : List Event :=
  trace.filter (fun e => e != Event.delay DELAY_BETWEEN_REQUESTS)

/-- The number of batches that the specification gives a job of `n` files:
`ceil(n / 5)`. -/
def specBatchCount (n : Nat) : Nat :=
  (n + 4) / 5

/-- Batch number `k` (from 0) that the specification gives a job: the files
`5 k` to `5 k + 4`, as far as they exist. -/
def specBatch (files : List File) (k : Nat) : List File :=
  (files.drop (5 * k)).take 5

/-- The batches of the specification, in order. -/
def specBatches (files : List File) : List (List File) :=
  (List.range (specBatchCount files.length)).map (specBatch files)

/-- What batch number `k` contributes to a run according to the
specification, the inter-request delays apart: its log line and one call per
file. -/
def specSegment (files : List File) (k : Nat) : List Event :=
  Event.batch (k + 1) (specBatchCount files.length) (specBatch files k) ::
    (specBatch files k).map Event.call

/-- The run that the specification describes, the inter-request delays apart:
the batches in order, with one 2000 ms wait between two batches and none
after the last. -/
def specPacing (files : List File) : List Event :=
  List.intercalate [Event.delay 2000]
    ((List.range (specBatchCount files.length)).map (specSegment files))

/-- A job of two images in mode `sonar`. -/
def twoImages : Job :=
  sampleJob 0 "job-1" [sampleFile 0 "a.png", sampleFile 1 "b.png"]

/-! ## Runs of the worker and executions of the server -/

/-- One whole call of `processQueue()` on the item `currentAnalysis`, from
`currentAnalysis.status = 'processing'` to the end of the `try` or `catch`
block: the item as the call leaves it, and the directory afterwards. `none` is
a call that does not come back. -/
def runProcessQueue (P : Providers) (F : FsFaults) (iso : String) (now : Int)
    (dir : List DirEntry) (currentAnalysis : Job) : Option (Job × List DirEntry) :=
  match processQueueTry P F iso now dir { currentAnalysis with status := Status.processing } with
  | none => none
  | some (outcome, dir1) =>
    some (settle outcome { currentAnalysis with status := Status.processing }, dir1)

/-- The object `analysisData` that `processQueue` builds from the item and the
results. -/
def analysisDataOf (currentAnalysis : Job) (results : List Result) : AnalysisData :=
  { id := currentAnalysis.id
    name := currentAnalysis.name
    timestamp := currentAnalysis.timestamp
    analysisMode := currentAnalysis.analysisMode
    results := results
    status := Status.completed
    textOutput := generateTextOutput results }

/-- A file system on which every `fs.writeFile` fails when it opens its file,
as a read-only disk does. -/
def writeFails : FsFaults :=
  { readdir := false
    stat := fun _ => false
    readFile := fun _ => false
    unlink := fun _ => false
    writeFile := fun _ => true
    writeFileOpens := fun _ => false }

/-- A file system on which every `fs.writeFile` opens its file and then
fails, as a full disk does. -/
def diskFull : FsFaults :=
  { readdir := false
    stat := fun _ => false
    readFile := fun _ => false
    unlink := fun _ => false
    writeFile := fun _ => true
    writeFileOpens := fun _ => true }

/-- What happens to the server, as the code makes it happen: a request
`POST /analyze`, a request `DELETE /api/queue/:id`, the running
`processQueue` call coming back from its last `await`, and a
`setTimeout(processQueue, 1000)` callback that fires. -/
inductive Action where
  | submit (files : List File) (analysisMode analysisName : Option String) (uuid iso : String)
  | remove (analysisId : String)
  | finish (outcome : Except String (List Result × String))
  | timer

/-- A request of a client, as opposed to a step of the worker. -/
def Action.isRequest : Action → Bool
  | Action.submit _ _ _ _ _ => true
  | Action.remove _ => true
  | Action.finish _ => false
  | Action.timer => false

/-- The state after an action; `none` when the action cannot happen in this
state (no call is running, no timer is pending). -/
def perform : Action → ServerState → Option ServerState
  | Action.submit files analysisMode analysisName uuid iso, s =>
    some (postAnalyze files analysisMode analysisName uuid iso s).2
  | Action.remove analysisId, s => some (deleteQueueItem analysisId s).2
  | Action.finish outcome, s =>
    if s.current.isSome then some (processQueueFinish outcome s) else none
  | Action.timer, s =>
    if 0 < s.timers then some (processQueue { s with timers := s.timers - 1 }) else none

/-- The state after a sequence of actions. -/
def run : List Action → ServerState → Option ServerState
  | [], s => some s
  | a :: rest, s =>
    match perform a s with
    | none => none
    | some t => run rest t

/-! ## Executions with the identity of the timers -/

/-- The server state together with the pending
`setTimeout(processQueue, 1000)` callbacks one by one: a timer is named by the
number of the `processQueue` call whose end set it, and `finished` counts the
calls that have ended. -/
structure TimedState where
  server : ServerState
  pending : List Nat
  finished : Nat
  deriving DecidableEq, Repr

/-- The timed state at start-up. -/
def initialTimed : TimedState :=
  { server := initialState, pending := [], finished := 0 }

/-- What happens to the server, with the timer that fires named. -/
inductive TimedAction where
  | submit (files : List File) (analysisMode analysisName : Option String) (uuid iso : String)
  | remove (analysisId : String)
  | finish (outcome : Except String (List Result × String))
  | fire (k : Nat)

/-- A submission. -/
def TimedAction.isSubmit : TimedAction → Bool
  | TimedAction.submit _ _ _ _ _ => true
  | _ => false

/-- The firing of the timer `n`. -/
def TimedAction.isFire (n : Nat) : TimedAction → Bool
  | TimedAction.fire k => k == n
  | _ => false

/-- The action without the name of the timer. -/
def TimedAction.toAction : TimedAction → Action
  | TimedAction.submit files analysisMode analysisName uuid iso =>
    Action.submit files analysisMode analysisName uuid iso
  | TimedAction.remove analysisId => Action.remove analysisId
  | TimedAction.finish outcome => Action.finish outcome
  | TimedAction.fire _ => Action.timer

/-- The timed state after an action; `none` when the action cannot happen: no
call is running, or the timer named is not pending. The end of a call sets
the timer named after it. -/
def performTimed : TimedAction → TimedState → Option TimedState
  | TimedAction.submit files analysisMode analysisName uuid iso, ts =>
    some { ts with server := (postAnalyze files analysisMode analysisName uuid iso ts.server).2 }
  | TimedAction.remove analysisId, ts =>
    some { ts with server := (deleteQueueItem analysisId ts.server).2 }
  | TimedAction.finish outcome, ts =>
    if ts.server.current.isSome then
      some { server := processQueueFinish outcome ts.server
             pending := ts.pending ++ [ts.finished]
             finished := ts.finished + 1 }
    else none
  | TimedAction.fire k, ts =>
    if k ∈ ts.pending then
      some { server := processQueue { ts.server with timers := ts.server.timers - 1 }
             pending := ts.pending.erase k
             finished := ts.finished }
    else none

/-- The timed state after a sequence of actions. -/
def runTimed : List TimedAction → TimedState → Option TimedState
  | [], ts => some ts
  | a :: rest, ts =>
    match performTimed a ts with
    | none => none
    | some ts1 => runTimed rest ts1

/-- The pending timers are those the server counts, and each was set by a call
that has ended. -/
def TimedInv (ts : TimedState) : Prop :=
  ts.pending.length = ts.server.timers ∧ ∀ k ∈ ts.pending, k < ts.finished

/-- The actions of an execution in which the first two jobs have finished, the
second one started by a submission; the third job waits and the timers of
both finished calls are pending. -/
def twoFinished : List TimedAction :=
  [TimedAction.submit [sampleFile 0 "a.png"] none none "job-1" "1970-01-01T00:00:00.000Z",
   TimedAction.submit [sampleFile 1 "b.png"] none none "job-2" "1970-01-01T00:00:00.100Z",
   TimedAction.finish (Except.ok ([], "")),
   TimedAction.submit [sampleFile 2 "c.png"] none none "job-3" "1970-01-01T00:00:00.200Z",
   TimedAction.finish (Except.ok ([], ""))]

/-! # Theorems -/

/-! ## Facts about processAnalysisFiles -/

theorem processFile_eq (P : Providers) (m : String) (batch : List File) (file : File)
    (st : RunState) :
    processFile P m batch file st =
      (Except.ok (),
        { results := st.results ++ [resultOf (analyze P m st.calls file) file],
          trace := st.trace ++ fileEvents P m batch st.calls file,
          calls := st.calls + 1 }) := by
  simp only [processFile, tryBody, fileEvents]
  generalize analyze P m st.calls file = o
  cases o with
  | error e => rfl
  | ok a =>
    by_cases hl : (batch.getLast?.map File.ref != some file.ref) = true
    · simp [resultOf, pushResult, hl, delay]
    · simp [resultOf, pushResult, hl]

theorem forBatch_eq (P : Providers) (m : String) (batch : List File) (fs : List File)
    (st : RunState) :
    forBatch P m batch fs st =
      (Except.ok (),
        { results := st.results ++ resultsFrom P m st.calls fs,
          trace := st.trace ++ batchEvents P m batch st.calls fs,
          calls := st.calls + fs.length }) := by
  induction fs generalizing st with
  | nil => simp [forBatch, resultsFrom, batchEvents]
  | cons f rest ih =>
    simp only [forBatch, processFile_eq, ih, resultsFrom, batchEvents, List.length_cons]
    simp [List.append_assoc, Nat.add_assoc, Nat.add_comm 1]

theorem resultsFrom_append (P : Providers) (m : String) (k : Nat) (xs ys : List File) :
    resultsFrom P m k (xs ++ ys) = resultsFrom P m k xs ++ resultsFrom P m (k + xs.length) ys := by
  induction xs generalizing k with
  | nil => simp [resultsFrom]
  | cons x xs ih =>
    have h := ih (k + 1)
    rw [Nat.add_assoc, Nat.add_comm 1] at h
    show resultOf (analyze P m k x) x :: resultsFrom P m (k + 1) (xs ++ ys) = _
    rw [h]
    rfl

theorem slice_append_drop (files : List File) (i : Nat) :
    slice files i (i + BATCH_SIZE) ++ files.drop (i + BATCH_SIZE) = files.drop i := by
  unfold slice
  rw [Nat.add_sub_cancel_left, ← List.drop_drop]
  exact List.take_append_drop _ _

theorem slice_length (files : List File) (i : Nat) :
    (slice files i (i + BATCH_SIZE)).length = min BATCH_SIZE (files.length - i) := by
  unfold slice
  rw [Nat.add_sub_cancel_left, List.length_take, List.length_drop]

theorem batchLoop_eq (P : Providers) (m : String) (files : List File) (fuel : Nat) :
    ∀ (i : Nat) (st : RunState), files.length ≤ i + fuel →
      batchLoop P m files fuel i st =
        some (Except.ok (),
          { results := st.results ++ resultsFrom P m st.calls (files.drop i),
            trace := st.trace ++ loopEvents P m files fuel i st.calls,
            calls := st.calls + (files.length - i) }) := by
  induction fuel with
  | zero =>
    intro i st h
    have hi : ¬ i < files.length := by omega
    have hd : files.drop i = [] := List.drop_eq_nil_of_le (by omega)
    have h0 : files.length - i = 0 := by omega
    unfold batchLoop
    simp [hi, hd, h0, resultsFrom, loopEvents]
  | succ fuel ih =>
    intro i st h
    by_cases hi : i < files.length
    · have hlen := slice_length files i
      have hres : resultsFrom P m st.calls (files.drop i) =
          resultsFrom P m st.calls (slice files i (i + BATCH_SIZE)) ++
            resultsFrom P m (st.calls + (slice files i (i + BATCH_SIZE)).length)
              (files.drop (i + BATCH_SIZE)) := by
        rw [← resultsFrom_append, slice_append_drop]
      have hcalls : st.calls + (slice files i (i + BATCH_SIZE)).length +
          (files.length - (i + BATCH_SIZE)) = st.calls + (files.length - i) := by
        rw [hlen]; omega
      have hfuel : files.length ≤ i + BATCH_SIZE + fuel := by
        unfold BATCH_SIZE; omega
      unfold batchLoop
      simp only [hi, if_true, forBatch_eq]
      by_cases hb : i + BATCH_SIZE < files.length
      · simp only [hb, if_true]
        rw [ih _ _ hfuel]
        simp only [delay, loopEvents, hi, hb, if_true, hres, hcalls]
        simp [List.append_assoc]
      · simp only [hb, if_false]
        rw [ih _ _ hfuel]
        simp only [loopEvents, hi, hb, if_true, if_false, hres, hcalls]
        simp [List.append_assoc]
    · have hd : files.drop i = [] := List.drop_eq_nil_of_le (by omega)
      have h0 : files.length - i = 0 := by omega
      unfold batchLoop
      simp [hi, hd, h0, resultsFrom, loopEvents]

/-- The run of `processAnalysisFiles` in closed form: it returns, it does not
throw, and its results and effects are those of the two loops. -/
theorem processAnalysisFiles_eq (P : Providers) (job : Job) :
    processAnalysisFiles P job =
      some (Except.ok (resultsFrom P job.analysisMode 0 job.files),
        { results := resultsFrom P job.analysisMode 0 job.files,
          trace := loopEvents P job.analysisMode job.files job.files.length 0 0,
          calls := job.files.length }) := by
  unfold processAnalysisFiles
  rw [batchLoop_eq P job.analysisMode job.files job.files.length 0 _ (by omega)]
  simp


theorem resultsFrom_length (P : Providers) (m : String) (k : Nat) (fs : List File) :
    (resultsFrom P m k fs).length = fs.length := by
  induction fs generalizing k with
  | nil => rfl
  | cons f rest ih => simp [resultsFrom, ih]

theorem resultsFrom_getElem? (P : Providers) (m : String) (k : Nat) (fs : List File) (i : Nat) :
    (resultsFrom P m k fs)[i]? =
      (fs[i]?).map (fun f => resultOf (analyze P m (k + i) f) f) := by
  induction fs generalizing k i with
  | nil => simp [resultsFrom]
  | cons f rest ih =>
    cases i with
    | zero => simp [resultsFrom]
    | succ i =>
      simp only [resultsFrom, List.getElem?_cons_succ, ih]
      rw [Nat.add_assoc, Nat.add_comm 1]

theorem resultOf_original (o : Except String String) (f : File) :
    (resultOf o f).original = f.originalname := by
  cases o <;> rfl

theorem resultsFrom_errors (P : Providers) (m : String) (k : Nat) (fs : List File) :
    ((resultsFrom P m k fs).filter (fun r => r.error)).length =
      ((callOutcomes P m k fs).filter threw).length := by
  induction fs generalizing k with
  | nil => rfl
  | cons f rest ih =>
    simp only [resultsFrom, callOutcomes]
    cases h : analyze P m k f with
    | error e => simp [resultOf, threw, List.filter_cons, ih]
    | ok a => simp [resultOf, threw, List.filter_cons, ih]

/-- C1: `processAnalysisFiles` returns one result per input file, in input
order: for every job and every behaviour of the analysis calls it returns a
list as long as `files`, and the `original` of its i-th result is the
`originalname` of the i-th file. -/
theorem processAnalysisFiles_one_result_per_file (P : Providers) (job : Job) :
    ∃ (results : List Result) (st : RunState),
      processAnalysisFiles P job = some (Except.ok results, st) ∧
      results.length = job.files.length ∧
      ∀ i : Nat, (results[i]?).map Result.original =
        (job.files[i]?).map File.originalname := by
  refine ⟨_, _, processAnalysisFiles_eq P job, resultsFrom_length _ _ _ _, ?_⟩
  intro i
  rw [resultsFrom_getElem?]
  cases job.files[i]? with
  | none => rfl
  | some f => simp [resultOf_original]

/-- C2: `processAnalysisFiles` does not throw, whatever the analysis calls
do. The result at index i is the placeholder (error flag set, text built
around the file's `originalname`) when the call for image i threw, and the
returned text without error flag when it returned. When exactly one call
throws and the save succeeds, the `try` block of `processQueue` ends
normally, the job gets status `completed`, and exactly one result is marked
as failed. -/
theorem processAnalysisFiles_catches_failures (P : Providers) (job : Job) :
    ∃ (results : List Result) (st : RunState),
      processAnalysisFiles P job = some (Except.ok results, st) ∧
      (∀ (i : Nat) (f : File), job.files[i]? = some f →
        (∀ e, analyze P job.analysisMode i f = Except.error e →
          results[i]? = some { original := f.originalname,
                               analysis := "**Original:** " ++ f.originalname ++
    "\n**Error:** Unable to process this image\n**Description:** Error occurred during analysis\n**Website Usage:** N/A\n**Professional Assessment:** Could not assess due to processing error",
                               error := true }) ∧
        (∀ t, analyze P job.analysisMode i f = Except.ok t →
          results[i]? = some { original := f.originalname, analysis := t, error := false })) ∧
      (∀ (F : FsFaults) (iso : String) (now : Int) (dir : List DirEntry),
        (∀ name, F.writeFile name = false) →
        ((callOutcomes P job.analysisMode 0 job.files).filter threw).length = 1 →
        ∃ (text : String) (dir1 : List DirEntry),
          processQueueTry P F iso now dir job = some (Except.ok (results, text), dir1) ∧
          (settle (Except.ok (results, text)) job).status = Status.completed ∧
          (results.filter (fun r => r.error)).length = 1) := by
  refine ⟨_, _, processAnalysisFiles_eq P job, ?_, ?_⟩
  · intro i f hf
    have hi : (resultsFrom P job.analysisMode 0 job.files)[i]? =
        some (resultOf (analyze P job.analysisMode i f) f) := by
      rw [resultsFrom_getElem?, hf]; simp
    constructor
    · intro e he
      rw [hi, he]; rfl
    · intro t ht
      rw [hi, ht]; rfl
  · intro F iso now dir hw hone
    have htry : processQueueTry P F iso now dir job =
        some (Except.ok (resultsFrom P job.analysisMode 0 job.files,
            generateTextOutput (resultsFrom P job.analysisMode 0 job.files)),
          writeFile (saveFilename iso
              { id := job.id, name := job.name, timestamp := job.timestamp,
                analysisMode := job.analysisMode,
                results := resultsFrom P job.analysisMode 0 job.files,
                status := Status.completed,
                textOutput := generateTextOutput (resultsFrom P job.analysisMode 0 job.files) })
            now
            { id := job.id, name := job.name, timestamp := job.timestamp,
              analysisMode := job.analysisMode,
              results := resultsFrom P job.analysisMode 0 job.files,
              status := Status.completed,
              textOutput := generateTextOutput (resultsFrom P job.analysisMode 0 job.files) }
            dir) := by
      simp only [processQueueTry, processAnalysisFiles_eq, saveAnalysis, hw]
      rfl
    refine ⟨_, _, htry, rfl, ?_⟩
    rw [resultsFrom_errors]; exact hone

/-- Witness of C2: three files, the call for the second one throws. -/
theorem processAnalysisFiles_catches_failures_witness :
    ∃ (results : List Result) (st : RunState),
      processAnalysisFiles (failingAt 1)
          (sampleJob 0 "j" [sampleFile 0 "a.png", sampleFile 1 "b.png", sampleFile 2 "c.png"]) =
        some (Except.ok results, st) ∧
      (results.filter (fun r => r.error)).length = 1 := by
  obtain ⟨results, st, h, _, h3⟩ := processAnalysisFiles_catches_failures (failingAt 1)
    (sampleJob 0 "j" [sampleFile 0 "a.png", sampleFile 1 "b.png", sampleFile 2 "c.png"])
  obtain ⟨_, _, _, _, hc⟩ := h3 noFaults "" 0 [] (fun _ => rfl) (by decide)
  exact ⟨results, st, h, hc⟩

/-! ## Facts about the queue -/

theorem updateRef_of_not_mem (r : Nat) (f : Job → Job) (queue : List Job)
    (h : ∀ j ∈ queue, j.ref ≠ r) : updateRef r f queue = queue := by
  induction queue with
  | nil => rfl
  | cons j rest ih =>
    have hj : j.ref ≠ r := h j (List.mem_cons_self _ _)
    have hrest : ∀ x ∈ rest, x.ref ≠ r := fun x hx => h x (List.mem_cons_of_mem _ hx)
    have ih1 := ih hrest
    unfold updateRef at ih1 ⊢
    simp [hj, ih1]

theorem updateRef_head (f : Job → Job) (cur : Job) (rest : List Job)
    (h : ((cur :: rest).map Job.ref).Nodup) :
    updateRef cur.ref f (cur :: rest) = f cur :: rest := by
  have hnot : ∀ j ∈ rest, j.ref ≠ cur.ref := by
    intro j hj heq
    have h1 := (List.nodup_cons.mp h).1
    exact h1 (heq ▸ List.mem_map_of_mem Job.ref hj)
  have h2 := updateRef_of_not_mem cur.ref f rest hnot
  unfold updateRef at h2 ⊢
  simp [h2]

theorem findIndex_spec (p : Job → Bool) (queue : List Job) :
    (findIndex p queue = none ∧ ∀ j ∈ queue, p j = false) ∨
    ∃ (before : List Job) (item : Job) (after : List Job),
      queue = before ++ item :: after ∧ findIndex p queue = some before.length ∧
      p item = true ∧ ∀ j ∈ before, p j = false := by
  induction queue with
  | nil => left; simp [findIndex]
  | cons j rest ih =>
    by_cases hj : p j = true
    · right
      exact ⟨[], j, rest, rfl, by simp [findIndex, hj], hj, by simp⟩
    · have hjf : p j = false := by simpa using hj
      rcases ih with ⟨hnone, hall⟩ | ⟨before, item, after, hq, hidx, hi, hb⟩
      · left
        refine ⟨by simp [findIndex, hjf, hnone], ?_⟩
        intro x hx
        rcases List.mem_cons.mp hx with rfl | hx
        · exact hjf
        · exact hall x hx
      · right
        refine ⟨j :: before, item, after, by simp [hq], by simp [findIndex, hjf, hidx], hi, ?_⟩
        intro x hx
        rcases List.mem_cons.mp hx with rfl | hx
        · exact hjf
        · exact hb x hx

theorem getElem?_append_cons (before : List Job) (item : Job) (after : List Job) :
    (before ++ item :: after)[before.length]? = some item := by
  rw [List.getElem?_append_right (Nat.le_refl _), Nat.sub_self]
  exact List.getElem?_cons_zero

theorem eraseIdx_append_cons (before : List Job) (item : Job) (after : List Job) :
    (before ++ item :: after).eraseIdx before.length = before ++ after := by
  induction before with
  | nil => rfl
  | cons b rest ih => simp [List.eraseIdx, ih]

theorem processQueue_idle_cons (s : ServerState) (cur : Job) (rest : List Job)
    (hidle : s.isProcessing = false) (hq : s.analysisQueue = cur :: rest)
    (hwf : WellFormed s) :
    processQueue s =
      { s with
        isProcessing := true
        current := some cur.ref
        analysisQueue := { cur with status := Status.processing } :: rest } := by
  have hnd : ((cur :: rest).map Job.ref).Nodup := hq ▸ hwf.1
  unfold processQueue
  simp only [hidle, hq, List.length_cons, List.head?_cons]
  rw [updateRef_head _ cur rest hnd]
  rfl

theorem processQueue_busy (s : ServerState) (h : s.isProcessing = true) :
    processQueue s = s := by
  unfold processQueue
  simp [h]

theorem processQueue_empty (s : ServerState) (h : s.analysisQueue = []) :
    processQueue s = s := by
  unfold processQueue
  simp [h]

theorem queueInv_initial : QueueInv initialState := by
  refine ⟨⟨by simp [initialState], by simp [initialState]⟩, Or.inr ⟨rfl, rfl, ?_⟩⟩
  simp [initialState]

theorem queueInv_processQueue (s : ServerState) (h : QueueInv s) : QueueInv (processQueue s) := by
  obtain ⟨hwf, hbusy | ⟨hidle, hcur, hall⟩⟩ := h
  · rw [processQueue_busy s hbusy.1]
    exact ⟨hwf, Or.inl hbusy⟩
  · cases hq : s.analysisQueue with
    | nil =>
      rw [processQueue_empty s hq]
      exact ⟨hwf, Or.inr ⟨hidle, hcur, hall⟩⟩
    | cons cur rest =>
      rw [processQueue_idle_cons s cur rest hidle hq hwf]
      have hnd : ((cur :: rest).map Job.ref).Nodup := hq ▸ hwf.1
      refine ⟨⟨hnd, ?_⟩, Or.inl ⟨rfl, _, rest, rfl, rfl, rfl, ?_⟩⟩
      · intro j hj
        have hb := hwf.2
        rw [hq] at hb
        rcases List.mem_cons.mp hj with rfl | hj
        · exact hb cur (List.mem_cons_self _ _)
        · exact hb j (List.mem_cons_of_mem _ hj)
      · intro j hj
        exact hall j (hq ▸ List.mem_cons_of_mem _ hj)

theorem processQueueFinish_running (outcome : Except String (List Result × String))
    (s : ServerState) (h : QueueInv s) (hc : s.current.isSome = true) :
    ∃ (cur : Job) (rest : List Job), s.analysisQueue = cur :: rest ∧
      s.current = some cur.ref ∧ cur.status = Status.processing ∧
      (∀ j ∈ rest, j.status = Status.queued) ∧
      processQueueFinish outcome s =
        { s with analysisQueue := rest, isProcessing := false, current := none,
                 timers := s.timers + 1 } := by
  obtain ⟨hwf, ⟨_, cur, rest, hq, hcur, hst, hall⟩ | ⟨_, hnone, _⟩⟩ := h
  · refine ⟨cur, rest, hq, hcur, hst, hall, ?_⟩
    have hnd : ((cur :: rest).map Job.ref).Nodup := hq ▸ hwf.1
    unfold processQueueFinish
    simp only [hcur, hq]
    rw [updateRef_head _ cur rest hnd]
    rfl
  · rw [hnone] at hc
    exact absurd hc (by simp)

theorem queueInv_processQueueFinish (outcome : Except String (List Result × String))
    (s : ServerState) (h : QueueInv s) (hc : s.current.isSome = true) :
    QueueInv (processQueueFinish outcome s) := by
  obtain ⟨cur, rest, hq, _, _, hall, heq⟩ := processQueueFinish_running outcome s h hc
  rw [heq]
  have hwf := h.1
  have hnd : ((cur :: rest).map Job.ref).Nodup := hq ▸ hwf.1
  refine ⟨⟨(List.nodup_cons.mp hnd).2, ?_⟩, Or.inr ⟨rfl, rfl, hall⟩⟩
  intro j hj
  exact hwf.2 j (hq ▸ List.mem_cons_of_mem _ hj)

theorem postAnalyze_state (files : List File) (analysisMode analysisName : Option String)
    (uuid iso : String) (s : ServerState) (hf : files ≠ []) :
    (postAnalyze files analysisMode analysisName uuid iso s).2 =
      if s.isProcessing then pushItem (newItem files analysisMode analysisName uuid iso s) s
      else processQueue (pushItem (newItem files analysisMode analysisName uuid iso s) s) := by
  have hlen : (files.length == 0) = false := by
    cases files with
    | nil => exact absurd rfl hf
    | cons f fs => rfl
  unfold postAnalyze
  simp only [hlen]
  cases hp : s.isProcessing <;> simp [pushItem, newItem, hp]

theorem postAnalyze_empty (analysisMode analysisName : Option String)
    (uuid iso : String) (s : ServerState) :
    postAnalyze [] analysisMode analysisName uuid iso s =
      ({ status := 400, analysisId := none, queuePosition := none,
         message := "No images uploaded" }, s) := by
  rfl

theorem wellFormed_pushItem (item : Job) (s : ServerState) (h : WellFormed s)
    (hr : item.ref = s.nextRef) : WellFormed (pushItem item s) := by
  obtain ⟨hnd, hb⟩ := h
  constructor
  · show ((s.analysisQueue ++ [item]).map Job.ref).Nodup
    rw [List.map_append, List.nodup_append]
    refine ⟨hnd, by simp, ?_⟩
    intro a ha hb2
    simp only [List.map_cons, List.map_nil, List.mem_singleton] at hb2
    obtain ⟨j, hj, rfl⟩ := List.mem_map.mp ha
    have := hb j hj
    omega
  · intro j hj
    show j.ref < s.nextRef + 1
    rcases List.mem_append.mp hj with hj | hj
    · exact Nat.lt_succ_of_lt (hb j hj)
    · rw [List.mem_singleton.mp hj, hr]; exact Nat.lt_succ_self _

theorem queueInv_pushItem (item : Job) (s : ServerState) (h : QueueInv s)
    (hr : item.ref = s.nextRef) (hs : item.status = Status.queued) :
    QueueInv (pushItem item s) := by
  obtain ⟨hwf, ⟨hbusy, cur, rest, hq, hcur, hst, hall⟩ | ⟨hidle, hcur, hall⟩⟩ := h
  · refine ⟨wellFormed_pushItem item s hwf hr, Or.inl ⟨hbusy, cur, rest ++ [item], ?_, hcur, hst, ?_⟩⟩
    · show s.analysisQueue ++ [item] = cur :: (rest ++ [item])
      rw [hq]; rfl
    · intro j hj
      rcases List.mem_append.mp hj with hj | hj
      · exact hall j hj
      · rw [List.mem_singleton.mp hj]; exact hs
  · refine ⟨wellFormed_pushItem item s hwf hr, Or.inr ⟨hidle, hcur, ?_⟩⟩
    intro j hj
    rcases List.mem_append.mp hj with hj | hj
    · exact hall j hj
    · rw [List.mem_singleton.mp hj]; exact hs

theorem queueInv_postAnalyze (files : List File) (analysisMode analysisName : Option String)
    (uuid iso : String) (s : ServerState) (h : QueueInv s) :
    QueueInv (postAnalyze files analysisMode analysisName uuid iso s).2 := by
  by_cases hf : files = []
  · subst hf
    rw [postAnalyze_empty]
    exact h
  · rw [postAnalyze_state _ _ _ _ _ _ hf]
    have hpush := queueInv_pushItem (newItem files analysisMode analysisName uuid iso s) s h rfl rfl
    cases hp : s.isProcessing
    · simpa using queueInv_processQueue _ hpush
    · simpa using hpush

theorem deleteQueueItem_cases (analysisId : String) (s : ServerState) :
    ((∀ j ∈ s.analysisQueue, (j.id == analysisId) = false) ∧
      (deleteQueueItem analysisId s).1.status = 404 ∧ (deleteQueueItem analysisId s).2 = s) ∨
    ∃ (before : List Job) (item : Job) (after : List Job),
      s.analysisQueue = before ++ item :: after ∧ (item.id == analysisId) = true ∧
      (∀ j ∈ before, (j.id == analysisId) = false) ∧
      ((item.status = Status.processing ∧
          (deleteQueueItem analysisId s).1.status = 400 ∧ (deleteQueueItem analysisId s).2 = s) ∨
       (item.status ≠ Status.processing ∧
          (deleteQueueItem analysisId s).1.status = 200 ∧
          (deleteQueueItem analysisId s).2 = { s with analysisQueue := before ++ after })) := by
  rcases findIndex_spec (fun item => item.id == analysisId) s.analysisQueue with
    ⟨hnone, hall⟩ | ⟨before, item, after, hq, hidx, hi, hb⟩
  · left
    refine ⟨hall, ?_, ?_⟩ <;> simp [deleteQueueItem, hnone]
  · right
    refine ⟨before, item, after, hq, hi, hb, ?_⟩
    have hget : s.analysisQueue[before.length]? = some item := by
      rw [hq]; exact getElem?_append_cons before item after
    have herase : s.analysisQueue.eraseIdx before.length = before ++ after := by
      rw [hq]; exact eraseIdx_append_cons before item after
    by_cases hst : item.status = Status.processing
    · left
      refine ⟨hst, ?_, ?_⟩ <;> simp [deleteQueueItem, hidx, hget, hst]
    · right
      refine ⟨hst, ?_, ?_⟩ <;> simp [deleteQueueItem, hidx, hget, hst, herase]

theorem queueInv_deleteQueueItem (analysisId : String) (s : ServerState) (h : QueueInv s) :
    QueueInv (deleteQueueItem analysisId s).2 := by
  rcases deleteQueueItem_cases analysisId s with
    ⟨_, _, heq⟩ | ⟨before, item, after, hq, _, _, ⟨_, _, heq⟩ | ⟨hst, _, heq⟩⟩
  · rw [heq]; exact h
  · rw [heq]; exact h
  · rw [heq]
    obtain ⟨hwf, hcases⟩ := h
    have hsub : List.Sublist (before ++ after) s.analysisQueue := by
      rw [hq]
      exact List.Sublist.append (List.Sublist.refl _) (List.sublist_cons_self _ _)
    have hwf2 : WellFormed { s with analysisQueue := before ++ after } :=
      ⟨List.Nodup.sublist (List.Sublist.map _ hsub) hwf.1,
        fun j hj => hwf.2 j (hsub.subset hj)⟩
    refine ⟨hwf2, ?_⟩
    rcases hcases with ⟨hbusy, cur, rest, hq2, hcur, hcst, hall⟩ | ⟨hidle, hcur, hall⟩
    · left
      refine ⟨hbusy, ?_⟩
      cases before with
      | nil =>
        rw [hq] at hq2
        injection hq2 with h1 h2
        exact absurd (h1 ▸ hcst) hst
      | cons b before2 =>
        rw [hq] at hq2
        injection hq2 with h1 h2
        subst h1
        refine ⟨b, before2 ++ after, rfl, hcur, hcst, ?_⟩
        intro j hj
        apply hall j
        rw [← h2]
        rcases List.mem_append.mp hj with hj | hj
        · exact List.mem_append_left _ hj
        · exact List.mem_append_right _ (List.mem_cons_of_mem _ hj)
    · right
      exact ⟨hidle, hcur, fun j hj => hall j (hsub.subset hj)⟩

theorem queueInv_step {s t : ServerState} (h : QueueInv s) (hstep : Step s t) : QueueInv t := by
  cases hstep with
  | submit files analysisMode analysisName uuid iso => exact queueInv_postAnalyze _ _ _ _ _ s h
  | remove analysisId => exact queueInv_deleteQueueItem analysisId s h
  | start => exact queueInv_processQueue s h
  | finish outcome hc => exact queueInv_processQueueFinish outcome s h hc
  | timer ht =>
    apply queueInv_processQueue
    exact ⟨⟨h.1.1, h.1.2⟩, h.2⟩

theorem queueInv_of_reachable {s : ServerState} (h : Reachable s) : QueueInv s := by
  induction h with
  | init => exact queueInv_initial
  | step _ hstep ih => exact queueInv_step ih hstep

theorem processingCount_of_queued (queue : List Job)
    (h : ∀ j ∈ queue, j.status = Status.queued) : processingCount queue = 0 := by
  unfold processingCount
  rw [List.length_eq_zero, List.filter_eq_nil_iff]
  intro j hj
  simp [h j hj]

/-- C3: in every state reachable from the empty idle queue by submissions,
removals, calls and completions of `processQueue` and timers, at most one item
of `analysisQueue` has status `processing`. -/
theorem at_most_one_processing (s : ServerState) (h : Reachable s) :
    processingCount s.analysisQueue ≤ 1 := by
  obtain ⟨_, ⟨_, cur, rest, hq, _, hst, hall⟩ | ⟨_, _, hall⟩⟩ := queueInv_of_reachable h
  · have hrest := processingCount_of_queued rest hall
    unfold processingCount at hrest ⊢
    rw [hq, List.filter_cons]
    simp [hst, hrest]
  · rw [processingCount_of_queued _ hall]
    exact Nat.zero_le 1

/-- Witness of C3: the state after the first submission, where one job is
being processed. -/
theorem at_most_one_processing_witness :
    Reachable oneRunning ∧ processingCount oneRunning.analysisQueue ≤ 1 :=
  ⟨Reachable.step Reachable.init (Step.submit _ _ _ _ _ _),
    at_most_one_processing oneRunning
      (Reachable.step Reachable.init (Step.submit _ _ _ _ _ _))⟩

/-- C4: on a queue with pairwise distinct ids, `DELETE /api/queue/:id`
answers 404 and changes nothing when no item has the id; answers 400 and
changes nothing when the item with the id has status `processing`; and
otherwise answers success and removes exactly that item, the others staying in
their order. -/
theorem deleteQueueItem_spec (s : ServerState) (x : String)
    (hids : (s.analysisQueue.map Job.id).Nodup) :
    ((∀ j ∈ s.analysisQueue, j.id ≠ x) →
      (deleteQueueItem x s).1.status = 404 ∧ (deleteQueueItem x s).2 = s) ∧
    (∀ j ∈ s.analysisQueue, j.id = x → j.status = Status.processing →
      (deleteQueueItem x s).1.status = 400 ∧ (deleteQueueItem x s).2 = s) ∧
    (∀ j ∈ s.analysisQueue, j.id = x → j.status ≠ Status.processing →
      (deleteQueueItem x s).1.status = 200 ∧
      ∃ (before after : List Job), s.analysisQueue = before ++ j :: after ∧
        (deleteQueueItem x s).2 = { s with analysisQueue := before ++ after } ∧
        ∀ k ∈ before ++ after, k.id ≠ x) := by
  have hfound : ∀ j ∈ s.analysisQueue, j.id = x →
      ∃ (before after : List Job), s.analysisQueue = before ++ j :: after ∧
        ((j.status = Status.processing ∧
            (deleteQueueItem x s).1.status = 400 ∧ (deleteQueueItem x s).2 = s) ∨
         (j.status ≠ Status.processing ∧
            (deleteQueueItem x s).1.status = 200 ∧
            (deleteQueueItem x s).2 = { s with analysisQueue := before ++ after })) := by
    intro j hj hjx
    rcases deleteQueueItem_cases x s with ⟨hall, _, _⟩ | ⟨before, item, after, hq, hi, _, hc⟩
    · have := hall j hj
      simp [hjx] at this
    · have hitem : item ∈ s.analysisQueue := by rw [hq]; simp
      have hix : item.id = x := by simpa using hi
      have heq : item = j :=
        List.inj_on_of_nodup_map hids hitem hj (hix.trans hjx.symm)
      subst heq
      exact ⟨before, after, hq, hc⟩
  refine ⟨?_, ?_, ?_⟩
  · intro hno
    rcases deleteQueueItem_cases x s with ⟨_, h1, h2⟩ | ⟨before, item, after, hq, hi, _, _⟩
    · exact ⟨h1, h2⟩
    · have hitem : item ∈ s.analysisQueue := by rw [hq]; simp
      exact absurd (by simpa using hi) (hno item hitem)
  · intro j hj hjx hst
    obtain ⟨_, _, _, ⟨_, h1, h2⟩ | ⟨hne, _, _⟩⟩ := hfound j hj hjx
    · exact ⟨h1, h2⟩
    · exact absurd hst hne
  · intro j hj hjx hst
    obtain ⟨before, after, hq, ⟨hp, _, _⟩ | ⟨_, h1, h2⟩⟩ := hfound j hj hjx
    · exact absurd hp hst
    · refine ⟨h1, before, after, hq, h2, ?_⟩
      intro k hk hkx
      have hnd : ((before ++ j :: after).map Job.id).Nodup := hq ▸ hids
      rw [List.map_append, List.map_cons, List.nodup_append] at hnd
      obtain ⟨_, hnd2, hdisj⟩ := hnd
      rcases List.mem_append.mp hk with hk | hk
      · exact hdisj (List.mem_map_of_mem Job.id hk)
          (by rw [hkx, ← hjx]; exact List.mem_cons_self _ _)
      · exact (List.nodup_cons.mp hnd2).1
          (by rw [hjx, ← hkx]; exact List.mem_map_of_mem Job.id hk)

/-- Witness of C4: a queue with a running and a waiting job; removing the
waiting job is answered with success. -/
theorem deleteQueueItem_spec_witness :
    (oneRunningOneQueued.analysisQueue.map Job.id).Nodup ∧
    (deleteQueueItem "job-2" oneRunningOneQueued).1.status = 200 :=
  ⟨by decide,
    ((deleteQueueItem_spec oneRunningOneQueued "job-2" (by decide)).2.2
      (newItem [sampleFile 1 "b.png"] none none "job-2" "1970-01-01T00:00:01.000Z" oneRunning)
      (by decide) rfl (by decide)).1⟩

theorem reachable_oneWaiting : Reachable oneWaiting :=
  Reachable.step
    (Reachable.step (Reachable.step Reachable.init (Step.submit _ _ _ _ _ _))
      (Step.submit _ _ _ _ _ _))
    (Step.finish _ _ (by decide))

/-- Counterexample to C8 as stated: the first job has finished, the second
waits with status `queued` and the timer has not fired yet. A third
submission starts the processing of the second job, so the queue after it is
not the old queue followed by one new item. -/
theorem postAnalyze_changes_waiting_head :
    Reachable oneWaiting ∧
    oneWaiting.analysisQueue.map Job.status = [Status.queued] ∧
    ((postAnalyze [sampleFile 2 "c.png"] none none "job-3" "1970-01-01T00:00:02.000Z"
        oneWaiting).2.analysisQueue.map Job.status = [Status.processing, Status.queued]) ∧
    ¬ ∃ item : Job,
      (postAnalyze [sampleFile 2 "c.png"] none none "job-3" "1970-01-01T00:00:02.000Z"
        oneWaiting).2.analysisQueue = oneWaiting.analysisQueue ++ [item] := by
  refine ⟨reachable_oneWaiting, by decide, by decide, ?_⟩
  rintro ⟨item, h⟩
  have h1 := congrArg (fun q => (q.map Job.status).head?) h
  have hl : ((postAnalyze [sampleFile 2 "c.png"] none none "job-3" "1970-01-01T00:00:02.000Z"
      oneWaiting).2.analysisQueue.map Job.status).head? = some Status.processing := by decide
  have hq : oneWaiting.analysisQueue.map Job.status = [Status.queued] := by decide
  simp only [hl, List.map_append, hq] at h1
  exact absurd h1 (by simp)

/-- C8, amended: an accepted submission appends exactly one new item, with
the submitted files, mode (default `sonar`) and name, and answers with the new
queue length as `queuePosition`. If the worker was busy, the earlier items
are unchanged and the new item has status `queued`. If the worker was idle,
processing of the head is started: the head of the new queue (the old head,
or the new item when the old queue was empty) gets status `processing` and
everything else is unchanged. -/
theorem postAnalyze_spec (s : ServerState) (files : List File)
    (analysisMode analysisName : Option String) (uuid iso : String)
    (hwf : WellFormed s) (hf : files ≠ []) :
    (postAnalyze files analysisMode analysisName uuid iso s).1.status = 200 ∧
    (postAnalyze files analysisMode analysisName uuid iso s).1.analysisId = some uuid ∧
    (postAnalyze files analysisMode analysisName uuid iso s).1.queuePosition =
      some (s.analysisQueue.length + 1) ∧
    (postAnalyze files analysisMode analysisName uuid iso s).2.analysisQueue.length =
      s.analysisQueue.length + 1 ∧
    (newItem files analysisMode analysisName uuid iso s).files = files ∧
    (newItem files analysisMode analysisName uuid iso s).analysisMode =
      (match analysisMode with
        | none => "sonar"
        | some m => if m = "" then "sonar" else m) ∧
    (newItem files analysisMode analysisName uuid iso s).name =
      (match analysisName with
        | none => ""
        | some n => n) ∧
    (newItem files analysisMode analysisName uuid iso s).status = Status.queued ∧
    (s.isProcessing = true →
      (postAnalyze files analysisMode analysisName uuid iso s).2.analysisQueue =
        s.analysisQueue ++ [newItem files analysisMode analysisName uuid iso s]) ∧
    (s.isProcessing = false → s.analysisQueue = [] →
      (postAnalyze files analysisMode analysisName uuid iso s).2.analysisQueue =
        [{ newItem files analysisMode analysisName uuid iso s with
            status := Status.processing }] ∧
      (postAnalyze files analysisMode analysisName uuid iso s).2.isProcessing = true) ∧
    (s.isProcessing = false → ∀ (cur : Job) (rest : List Job), s.analysisQueue = cur :: rest →
      (postAnalyze files analysisMode analysisName uuid iso s).2.analysisQueue =
        { cur with status := Status.processing } :: rest ++
          [newItem files analysisMode analysisName uuid iso s] ∧
      (postAnalyze files analysisMode analysisName uuid iso s).2.isProcessing = true) := by
  have hstate := postAnalyze_state files analysisMode analysisName uuid iso s hf
  have hpwf := wellFormed_pushItem (newItem files analysisMode analysisName uuid iso s) s hwf rfl
  have hbusy : s.isProcessing = true →
      (postAnalyze files analysisMode analysisName uuid iso s).2.analysisQueue =
        s.analysisQueue ++ [newItem files analysisMode analysisName uuid iso s] := by
    intro hp
    rw [hstate, hp]; rfl
  have hidle : s.isProcessing = false → ∀ (cur : Job) (rest : List Job),
      s.analysisQueue ++ [newItem files analysisMode analysisName uuid iso s] = cur :: rest →
      (postAnalyze files analysisMode analysisName uuid iso s).2.analysisQueue =
        { cur with status := Status.processing } :: rest ∧
      (postAnalyze files analysisMode analysisName uuid iso s).2.isProcessing = true := by
    intro hp cur rest hq
    rw [hstate, hp]
    simp only [Bool.false_eq_true, if_false]
    rw [processQueue_idle_cons (pushItem (newItem files analysisMode analysisName uuid iso s) s)
      cur rest hp hq hpwf]
    exact ⟨rfl, rfl⟩
  have hlen : (postAnalyze files analysisMode analysisName uuid iso s).2.analysisQueue.length =
      s.analysisQueue.length + 1 := by
    cases hp : s.isProcessing
    · cases hq : s.analysisQueue ++ [newItem files analysisMode analysisName uuid iso s] with
      | nil => simp at hq
      | cons cur rest =>
        rw [(hidle hp cur rest hq).1]
        have := congrArg List.length hq
        simpa using this.symm
    · rw [hbusy hp]; simp
  have hlen0 : (files.length == 0) = false := by
    cases files with
    | nil => exact absurd rfl hf
    | cons f fs => rfl
  have hpos : (postAnalyze files analysisMode analysisName uuid iso s).1.queuePosition =
      some (postAnalyze files analysisMode analysisName uuid iso s).2.analysisQueue.length := by
    unfold postAnalyze
    simp only [hlen0]
    rfl
  refine ⟨?_, ?_, by rw [hpos, hlen], hlen, rfl, ?_, ?_, rfl, hbusy, ?_, ?_⟩
  · unfold postAnalyze
    simp only [hlen0]
    rfl
  · unfold postAnalyze
    simp only [hlen0]
    rfl
  · cases analysisMode with
    | none => rfl
    | some m =>
      show orDefault (some m) "sonar" = _
      unfold orDefault
      by_cases hm : m = ""
      · subst hm; rfl
      · have : m.data.isEmpty = false := by
          cases hd : m.data with
          | nil => exact absurd (String.ext hd) hm
          | cons c cs => rfl
        simp [this, hm]
  · cases analysisName with
    | none => rfl
    | some n =>
      show orDefault (some n) "" = _
      unfold orDefault
      by_cases hn : n = ""
      · subst hn; rfl
      · have : n.data.isEmpty = false := by
          cases hd : n.data with
          | nil => exact absurd (String.ext hd) hn
          | cons c cs => rfl
        simp [this]
  · intro hp hq
    have := hidle hp (newItem files analysisMode analysisName uuid iso s) [] (by rw [hq]; rfl)
    exact this
  · intro hp cur rest hq
    exact hidle hp cur (rest ++ [newItem files analysisMode analysisName uuid iso s])
      (by rw [hq]; rfl)

/-- Witness of C8: the third submission of the counterexample. -/
theorem postAnalyze_spec_witness :
    WellFormed oneWaiting ∧
    (postAnalyze [sampleFile 2 "c.png"] none none "job-3" "1970-01-01T00:00:02.000Z"
      oneWaiting).1.queuePosition = some (oneWaiting.analysisQueue.length + 1) :=
  ⟨by decide,
    (postAnalyze_spec oneWaiting [sampleFile 2 "c.png"] none none "job-3"
      "1970-01-01T00:00:02.000Z" (by decide) (by decide)).2.2.1⟩

/-! ## Facts about the result store -/

theorem mem_insertSorted (cmp : Summary → Summary → Int) (a x : Summary) (l : List Summary) :
    x ∈ insertSorted cmp a l ↔ x = a ∨ x ∈ l := by
  induction l with
  | nil => simp [insertSorted]
  | cons b rest ih =>
    unfold insertSorted
    by_cases h : cmp a b ≤ 0
    · simp [h]
    · simp only [h, if_false, List.mem_cons, ih]
      constructor
      · rintro (h1 | h1 | h1)
        · exact Or.inr (Or.inl h1)
        · exact Or.inl h1
        · exact Or.inr (Or.inr h1)
      · rintro (h1 | h1 | h1)
        · exact Or.inr (Or.inl h1)
        · exact Or.inl h1
        · exact Or.inr (Or.inr h1)

theorem mem_sortSummaries (cmp : Summary → Summary → Int) (x : Summary) (l : List Summary) :
    x ∈ sortSummaries cmp l ↔ x ∈ l := by
  induction l with
  | nil => simp [sortSummaries]
  | cons a rest ih => simp [sortSummaries, mem_insertSorted, ih]

theorem lookupFile_some {dir : List DirEntry} {name : String} {e : DirEntry}
    (h : lookupFile dir name = some e) : e ∈ dir ∧ e.name = name := by
  unfold lookupFile at h
  exact ⟨List.mem_of_find?_eq_some h, by simpa using List.find?_some h⟩

theorem recentLoop_mem (F : FsFaults) (cutoff : Int) (dir : List DirEntry)
    (files : List String) :
    ∀ (analyses out : List Summary), recentLoop F cutoff dir files analyses = Except.ok out →
      ∀ s ∈ out, s ∈ analyses ∨
        ∃ e ∈ dir, endsWith e.name ".json" = true ∧ cutoff < e.mtime ∧
          s.id = stripJson e.name ∧
          ∃ data, e.content = some data ∧ s.timestamp = data.timestamp := by
  induction files with
  | nil =>
    intro analyses out h s hs
    simp only [recentLoop, Except.ok.injEq] at h
    exact Or.inl (h ▸ hs)
  | cons file rest ih =>
    intro analyses out h s hs
    unfold recentLoop at h
    by_cases hj : endsWith file ".json" = true
    · simp only [hj, if_true] at h
      by_cases hstat : F.stat file = true
      · simp [hstat] at h
      · simp only [hstat] at h
        cases hl : lookupFile dir file with
        | none => simp [hl] at h
        | some stats =>
          obtain ⟨hmem, hname⟩ := lookupFile_some hl
          simp only [hl] at h
          by_cases hm : stats.mtime > cutoff
          · simp only [hm, if_true] at h
            by_cases hr : F.readFile file = true
            · simp [hr] at h
            · simp only [hr] at h
              cases hc : stats.content with
              | none => simp [hc] at h
              | some data =>
                simp only [hc] at h
                rcases ih _ out h s hs with h1 | h1
                · rcases List.mem_append.mp h1 with h2 | h2
                  · exact Or.inl h2
                  · right
                    rw [List.mem_singleton] at h2
                    refine ⟨stats, hmem, by rw [hname]; exact hj, hm, ?_, data, hc, ?_⟩
                    · rw [h2, hname]
                    · rw [h2]
                · exact Or.inr h1
          · simp only [hm, if_false] at h
            exact ih _ out h s hs
    · simp only [hj] at h
      exact ih _ out h s hs

/-- Counterexample to C5 as stated: a job submitted at the epoch whose
record was written 25 hours later. At `now` = 100000000 ms the file is 10000
seconds old and is listed, although the record's `timestamp` lies more than
24 hours before `now`. -/
theorem getRecentAnalyses_lists_old_record :
    getRecentAnalyses noFaults epochDate 100000000 lateDir =
      [{ id := "1970-01-02T01-00-00-000Z_shots", name := "shots",
         timestamp := "1970-01-01T00:00:00.000Z", imageCount := 0,
         status := Status.completed }] ∧
    epochDate "1970-01-01T00:00:00.000Z" = some 0 ∧
    (0 : Int) < 100000000 - DAY_MS := by
  decide

/-- C5, amended: every summary that `getRecentAnalyses` returns belongs to a
`.json` file of the directory whose modification time is less than 24 hours
before `now`; its `id` is the file name without `.json` and its `timestamp`
is the one stored in the file. -/
theorem getRecentAnalyses_recent_mtime (F : FsFaults) (dateOf : String → Option Int)
    (now : Int) (dir : List DirEntry) (s : Summary)
    (hs : s ∈ getRecentAnalyses F dateOf now dir) :
    ∃ e ∈ dir, endsWith e.name ".json" = true ∧ now - 24 * 60 * 60 * 1000 < e.mtime ∧
      s.id = stripJson e.name ∧
      ∃ data, e.content = some data ∧ s.timestamp = data.timestamp := by
  unfold getRecentAnalyses at hs
  by_cases hr : F.readdir = true
  · simp [hr] at hs
  · simp only [hr] at hs
    cases hl : recentLoop F (now - DAY_MS) dir (dir.map DirEntry.name) [] with
    | error e => simp [hl] at hs
    | ok out =>
      simp only [hl] at hs
      have hmem : s ∈ out := (mem_sortSummaries _ s out).mp (by simpa using hs)
      rcases recentLoop_mem F (now - DAY_MS) dir _ [] out hl s hmem with h1 | h1
      · simp at h1
      · exact h1

/-- Witness of C5: a record written 1000 seconds before `now`. -/
theorem getRecentAnalyses_recent_mtime_witness :
    ∃ e ∈ lateDir, endsWith e.name ".json" = true ∧
      (90001000 : Int) - 24 * 60 * 60 * 1000 < e.mtime ∧
      "1970-01-02T01-00-00-000Z_shots" = stripJson e.name ∧
      ∃ data, e.content = some data ∧ "1970-01-01T00:00:00.000Z" = data.timestamp :=
  getRecentAnalyses_recent_mtime noFaults epochDate 90001000 lateDir
    { id := "1970-01-02T01-00-00-000Z_shots", name := "shots",
      timestamp := "1970-01-01T00:00:00.000Z", imageCount := 0, status := Status.completed }
    (by decide)

theorem lookupFile_of_mem (dir : List DirEntry) (e : DirEntry) (he : e ∈ dir)
    (hnd : (dir.map DirEntry.name).Nodup) : lookupFile dir e.name = some e := by
  cases hl : lookupFile dir e.name with
  | none =>
    unfold lookupFile at hl
    have := List.find?_eq_none.mp hl e he
    simp at this
  | some e2 =>
    obtain ⟨h2, hn⟩ := lookupFile_some hl
    rw [List.inj_on_of_nodup_map hnd h2 he hn]

theorem cleanupLoop_eq (F : FsFaults) (cutoff : Int)
    (hstat : ∀ f, F.stat f = false) (hunlink : ∀ f, F.unlink f = false)
    (files : List String) :
    ∀ (dir : List DirEntry), (dir.map DirEntry.name).Nodup →
      (∀ f ∈ files, f ∈ dir.map DirEntry.name) → files.Nodup →
      cleanupLoop F cutoff files dir =
        dir.filter (fun e => !(decide (e.name ∈ files) && endsWith e.name ".json" &&
          decide (e.mtime < cutoff))) := by
  induction files with
  | nil =>
    intro dir _ _ _
    simp [cleanupLoop]
  | cons file rest ih =>
    intro dir hnd hsub hfiles
    have hrest : rest.Nodup := (List.nodup_cons.mp hfiles).2
    have hnotin : file ∉ rest := (List.nodup_cons.mp hfiles).1
    have hsubrest : ∀ f ∈ rest, f ∈ dir.map DirEntry.name :=
      fun f hf => hsub f (List.mem_cons_of_mem _ hf)
    obtain ⟨stats, hmem, hname⟩ := List.mem_map.mp (hsub file (List.mem_cons_self _ _))
    have hlook : lookupFile dir file = some stats := by
      rw [← hname]; exact lookupFile_of_mem dir stats hmem hnd
    have huniq : ∀ e ∈ dir, e.name = file → e = stats := fun e he hn =>
      List.inj_on_of_nodup_map hnd he hmem (hn.trans hname.symm)
    unfold cleanupLoop
    by_cases hj : endsWith file ".json" = true
    · simp only [hj, if_true, hstat, hlook, hunlink, Bool.false_eq_true, if_false]
      by_cases hold : stats.mtime < cutoff
      · simp only [hold, if_true]
        rw [ih (dir.filter (fun e => e.name != file))
          (List.Nodup.sublist (List.Sublist.map _ (List.filter_sublist _)) hnd) ?_ hrest]
        · rw [List.filter_filter]
          apply List.filter_congr
          intro e he
          by_cases hn : e.name = file
          · have := huniq e he hn
            subst this
            simp [hn, hj, hold]
          · simp [hn]
        · intro f hf
          obtain ⟨e, he, hen⟩ := List.mem_map.mp (hsubrest f hf)
          refine List.mem_map.mpr ⟨e, List.mem_filter.mpr ⟨he, ?_⟩, hen⟩
          have : e.name ≠ file := fun h => hnotin (h ▸ hen ▸ hf)
          simpa using this
      · simp only [hold, if_false]
        rw [ih dir hnd hsubrest hrest]
        apply List.filter_congr
        intro e he
        by_cases hn : e.name = file
        · have := huniq e he hn
          subst this
          simp [hold]
        · simp [hn]
    · simp only [hj]
      rw [ih dir hnd hsubrest hrest]
      apply List.filter_congr
      intro e he
      by_cases hn : e.name = file
      · simp [hn, hj]
      · simp [hn]

/-- C6: when no file-system call fails, `cleanupOldAnalyses` leaves the
directory without exactly the `.json` files whose modification time is more
than 24 hours before `now`: such a file is removed, every other file stays. -/
theorem cleanupOldAnalyses_spec (F : FsFaults) (now : Int) (dir : List DirEntry)
    (hreaddir : F.readdir = false) (hstat : ∀ f, F.stat f = false)
    (hunlink : ∀ f, F.unlink f = false) (hnd : (dir.map DirEntry.name).Nodup) :
    cleanupOldAnalyses F now dir =
      dir.filter (fun e => !(endsWith e.name ".json" &&
        decide (e.mtime < now - 24 * 60 * 60 * 1000))) ∧
    ∀ e ∈ dir, (e ∈ cleanupOldAnalyses F now dir ↔
      ¬ (endsWith e.name ".json" = true ∧ e.mtime < now - 24 * 60 * 60 * 1000)) := by
  have heq : cleanupOldAnalyses F now dir =
      dir.filter (fun e => !(endsWith e.name ".json" &&
        decide (e.mtime < now - 24 * 60 * 60 * 1000))) := by
    unfold cleanupOldAnalyses
    simp only [hreaddir, Bool.false_eq_true, if_false]
    rw [cleanupLoop_eq F (now - DAY_MS) hstat hunlink _ dir hnd (fun f hf => hf) hnd]
    apply List.filter_congr
    intro e he
    have : e.name ∈ dir.map DirEntry.name := List.mem_map_of_mem _ he
    simp [this, DAY_MS]
  refine ⟨heq, ?_⟩
  intro e he
  rw [heq, List.mem_filter]
  cases hj : endsWith e.name ".json" <;> simp [he]

/-- Witness of C6: the directory of the C5 example, cleaned two days after
the epoch. -/
theorem cleanupOldAnalyses_spec_witness :
    (lateDir.map DirEntry.name).Nodup ∧
    cleanupOldAnalyses noFaults 200000000 lateDir =
      lateDir.filter (fun e => !(endsWith e.name ".json" &&
        decide (e.mtime < 200000000 - 24 * 60 * 60 * 1000))) :=
  ⟨by decide,
    (cleanupOldAnalyses_spec noFaults 200000000 lateDir rfl (fun _ => rfl) (fun _ => rfl)
      (by decide)).1⟩

theorem removeFirst_append_json (l : List Char) (h : ∀ c ∈ l, c ≠ Char.ofNat 46) :
    removeFirst ".json".data (l ++ ".json".data) = l := by
  induction l with
  | nil => rfl
  | cons c cs ih =>
    have hc : c ≠ Char.ofNat 46 := h c (List.mem_cons_self _ _)
    have hcs : ∀ x ∈ cs, x ≠ Char.ofNat 46 := fun x hx => h x (List.mem_cons_of_mem _ hx)
    have hne : (Char.ofNat 46 == c) = false := by
      simpa using fun heq : Char.ofNat 46 = c => hc heq.symm
    show removeFirst (Char.ofNat 46 :: "json".data) (c :: (cs ++ ".json".data)) = c :: cs
    unfold removeFirst
    simp only [List.isPrefixOf, hne, Bool.false_and, Bool.false_eq_true, if_false]
    exact congrArg (List.cons c) (ih hcs)

theorem collapseSpaces_no_dot (inRun : Bool) (l : List Char)
    (h : ∀ c ∈ l, c ≠ Char.ofNat 46) :
    ∀ c ∈ collapseSpaces inRun l, c ≠ Char.ofNat 46 := by
  induction l generalizing inRun with
  | nil => intro c hc; simp [collapseSpaces] at hc
  | cons x xs ih =>
    have hx : x ≠ Char.ofNat 46 := h x (List.mem_cons_self _ _)
    have hxs : ∀ c ∈ xs, c ≠ Char.ofNat 46 := fun c hc => h c (List.mem_cons_of_mem _ hc)
    intro c hc
    unfold collapseSpaces at hc
    cases hw : isWhiteSpace x with
    | true =>
      rw [hw] at hc
      cases inRun with
      | true => exact ih true hxs c (by simpa using hc)
      | false =>
        have hc2 : c = Char.ofNat 45 ∨ c ∈ collapseSpaces true xs := by simpa using hc
        rcases hc2 with h1 | h1
        · rw [h1]; decide
        · exact ih true hxs c h1
    | false =>
      rw [hw] at hc
      have hc2 : c = x ∨ c ∈ collapseSpaces false xs := by simpa using hc
      rcases hc2 with h1 | h1
      · rw [h1]; exact hx
      · exact ih false hxs c h1

theorem isSafeChar_dot : isSafeChar (Char.ofNat 46) = false := by decide

theorem safeName_no_dot (name : String) : ∀ c ∈ (safeName name).data, c ≠ Char.ofNat 46 := by
  unfold safeName
  by_cases he : name.data.isEmpty = true
  · simp only [he, if_true]
    decide
  · simp only [he, if_false]
    apply collapseSpaces_no_dot
    intro c hc heq
    have := (List.mem_filter.mp hc).2
    rw [heq, isSafeChar_dot] at this
    exact absurd this (by decide)

theorem replaceColonDot_no_dot (s : String) :
    ∀ c ∈ (replaceColonDot s).data, c ≠ Char.ofNat 46 := by
  intro c hc
  unfold replaceColonDot at hc
  obtain ⟨x, _, hx⟩ := List.mem_map.mp hc
  by_cases h : x.toNat = 58 ∨ x.toNat = 46
  · simp only [h, if_true] at hx
    rw [← hx]; decide
  · simp only [h, if_false] at hx
    rw [← hx]
    intro heq
    apply h
    right
    rw [heq]; rfl

/-- The name `saveAnalysis` gives a file is its id followed by `.json`. -/
theorem stripJson_saveFilename (iso : String) (data : AnalysisData) :
    stripJson (saveFilename iso data) ++ ".json" = saveFilename iso data := by
  have hbase : ∀ c ∈ (replaceColonDot iso ++ "_" ++ safeName data.name).data,
      c ≠ Char.ofNat 46 := by
    intro c hc
    simp only [String.data_append, List.mem_append] at hc
    rcases hc with (hc | hc) | hc
    · exact replaceColonDot_no_dot iso c hc
    · revert hc; revert c; decide
    · exact safeName_no_dot data.name c hc
  have hstrip : stripJson (saveFilename iso data) =
      replaceColonDot iso ++ "_" ++ safeName data.name := by
    apply String.ext
    show removeFirst ".json".data (saveFilename iso data).data = _
    unfold saveFilename
    rw [String.data_append]
    exact removeFirst_append_json _ hbase
  rw [hstrip]
  rfl

theorem lookupFile_writeFile (name : String) (now : Int) (content : AnalysisData)
    (dir : List DirEntry) :
    lookupFile (writeFile name now content dir) name =
      some { name := name, mtime := now, content := some content } := by
  unfold lookupFile writeFile
  rw [List.find?_append]
  have : List.find? (fun e => e.name == name) (dir.filter (fun e => e.name != name)) = none := by
    rw [List.find?_eq_none]
    intro e he
    have := (List.mem_filter.mp he).2
    simpa using this
  rw [this]
  simp

/-- C9: a record saved by `saveAnalysis` is read back unchanged by id. The
file name returned, with its first `.json` removed as `getRecentAnalyses`
does, is an id whose file `id + '.json'` is the file written, for every
display name and every save time, and `GET /api/analyses/:id` answers with
the record saved. -/
theorem save_then_get (F : FsFaults) (iso : String) (now : Int) (data : AnalysisData)
    (dir : List DirEntry)
    (hwrite : F.writeFile (saveFilename iso data) = false)
    (hread : F.readFile (saveFilename iso data) = false) :
    ∃ key : String,
      (saveAnalysis F iso now data dir).1 = Except.ok key ∧
      stripJson key ++ ".json" = key ∧
      getAnalysis F (saveAnalysis F iso now data dir).2 (stripJson key) = Except.ok data := by
  refine ⟨saveFilename iso data, ?_, stripJson_saveFilename iso data, ?_⟩
  · simp [saveAnalysis, hwrite]
  · unfold getAnalysis
    rw [stripJson_saveFilename, hread]
    simp only [saveAnalysis, hwrite, Bool.false_eq_true, if_false]
    rw [lookupFile_writeFile]

/-- Witness of C9: a record whose display name itself ends in `.json`, saved
into the directory of the C5 example. -/
theorem save_then_get_witness :
    ∃ key : String,
      (saveAnalysis noFaults "1970-01-03T00:00:00.000Z" 172800000
        { id := "job-9", name := "?!.json", timestamp := "1970-01-03T00:00:00.000Z",
          analysisMode := "sonar", results := [], status := Status.completed,
          textOutput := "" } lateDir).1 = Except.ok key ∧
      stripJson key ++ ".json" = key ∧
      getAnalysis noFaults
        (saveAnalysis noFaults "1970-01-03T00:00:00.000Z" 172800000
          { id := "job-9", name := "?!.json", timestamp := "1970-01-03T00:00:00.000Z",
            analysisMode := "sonar", results := [], status := Status.completed,
            textOutput := "" } lateDir).2 (stripJson key) =
        Except.ok { id := "job-9", name := "?!.json", timestamp := "1970-01-03T00:00:00.000Z",
                    analysisMode := "sonar", results := [], status := Status.completed,
                    textOutput := "" } :=
  save_then_get noFaults "1970-01-03T00:00:00.000Z" 172800000
    { id := "job-9", name := "?!.json", timestamp := "1970-01-03T00:00:00.000Z",
      analysisMode := "sonar", results := [], status := Status.completed, textOutput := "" }
    lateDir rfl rfl

/-! ## Facts about the pacing of a run -/

theorem slice_eq_specBatch (files : List File) (b : Nat) :
    slice files (5 * b) (5 * b + BATCH_SIZE) = specBatch files b := by
  unfold slice specBatch BATCH_SIZE
  rw [Nat.add_sub_cancel_left]

theorem loopEvents_done (P : Providers) (m : String) (files : List File) (fuel b k : Nat)
    (h : files.length ≤ 5 * b) : loopEvents P m files fuel (5 * b) k = [] := by
  cases fuel with
  | zero => rfl
  | succ fuel =>
    unfold loopEvents
    have : ¬ 5 * b < files.length := by omega
    simp [this]

theorem loopEvents_step (P : Providers) (m : String) (files : List File) (fuel b k : Nat)
    (h : 5 * b < files.length) :
    loopEvents P m files (fuel + 1) (5 * b) k =
      Event.batch (b + 1) (specBatchCount files.length) (specBatch files b) ::
        (batchEvents P m (specBatch files b) k (specBatch files b) ++
          ((if b + 1 < specBatchCount files.length then [Event.delay 2000] else []) ++
            loopEvents P m files fuel (5 * (b + 1)) (k + (specBatch files b).length))) := by
  have h1 : 5 * b / BATCH_SIZE + 1 = b + 1 := by
    unfold BATCH_SIZE; omega
  have h2 : (files.length + BATCH_SIZE - 1) / BATCH_SIZE = specBatchCount files.length := by
    unfold BATCH_SIZE specBatchCount; rfl
  have h3 : (5 * b + BATCH_SIZE < files.length) ↔ (b + 1 < specBatchCount files.length) := by
    unfold BATCH_SIZE specBatchCount; omega
  have h4 : 5 * b + BATCH_SIZE = 5 * (b + 1) := by
    unfold BATCH_SIZE; omega
  conv => lhs; unfold loopEvents
  simp only [h, if_true, h1, h2, slice_eq_specBatch, h3, DELAY_BETWEEN_BATCHES]
  rw [h4]

theorem intercalate_singleton (sep : List Event) (x : List Event) :
    List.intercalate sep [x] = x := by
  simp [List.intercalate]

theorem intercalate_cons_cons (sep : List Event) (x y : List Event) (ys : List (List Event)) :
    List.intercalate sep (x :: y :: ys) = x ++ (sep ++ List.intercalate sep (y :: ys)) := by
  simp [List.intercalate]

theorem withoutRequestDelays_append (xs ys : List Event) :
    withoutRequestDelays (xs ++ ys) = withoutRequestDelays xs ++ withoutRequestDelays ys := by
  simp [withoutRequestDelays]

theorem withoutRequestDelays_batchEvents (P : Providers) (m : String) (batch : List File)
    (k : Nat) (fs : List File) :
    withoutRequestDelays (batchEvents P m batch k fs) = fs.map Event.call := by
  induction fs generalizing k with
  | nil => rfl
  | cons f rest ih =>
    simp only [batchEvents, withoutRequestDelays_append, ih, List.map_cons]
    have : withoutRequestDelays (fileEvents P m batch k f) = [Event.call f] := by
      unfold fileEvents
      cases analyze P m k f with
      | error e => simp [withoutRequestDelays]
      | ok a =>
        by_cases hl : (batch.getLast?.map File.ref != some f.ref) = true
        · simp [hl, withoutRequestDelays]
        · simp [hl, withoutRequestDelays]
    rw [this]; rfl

theorem batchesOf_append (xs ys : List Event) :
    batchesOf (xs ++ ys) = batchesOf xs ++ batchesOf ys := by
  induction xs with
  | nil => rfl
  | cons e rest ih => cases e <;> simp [batchesOf, ih]

theorem batchesOf_batchEvents (P : Providers) (m : String) (batch : List File)
    (k : Nat) (fs : List File) : batchesOf (batchEvents P m batch k fs) = [] := by
  induction fs generalizing k with
  | nil => rfl
  | cons f rest ih =>
    simp only [batchEvents, batchesOf_append, ih, List.append_nil]
    unfold fileEvents
    cases analyze P m k f with
    | error e => rfl
    | ok a =>
      by_cases hl : (batch.getLast?.map File.ref != some f.ref) = true
      · simp [hl, batchesOf]
      · simp [hl, batchesOf]

theorem delayCount_append (ms : Nat) (xs ys : List Event) :
    delayCount ms (xs ++ ys) = delayCount ms xs + delayCount ms ys := by
  simp [delayCount]

theorem delayCount_batchEvents (P : Providers) (m : String) (batch : List File)
    (k : Nat) (fs : List File) :
    delayCount 2000 (batchEvents P m batch k fs) = 0 := by
  induction fs generalizing k with
  | nil => rfl
  | cons f rest ih =>
    simp only [batchEvents, delayCount_append, ih, Nat.add_zero]
    unfold fileEvents
    cases analyze P m k f with
    | error e => rfl
    | ok a =>
      by_cases hl : (batch.getLast?.map File.ref != some f.ref) = true
      · simp only [hl, if_true]; rfl
      · simp only [hl]; rfl

theorem specBatchCount_pos_iff (n b : Nat) : b < specBatchCount n ↔ 5 * b < n := by
  unfold specBatchCount; omega

theorem range'_of_lt (b M : Nat) (h : b < M) :
    List.range' b (M - b) = b :: List.range' (b + 1) (M - (b + 1)) := by
  have : M - b = (M - (b + 1)) + 1 := by omega
  rw [this, List.range'_succ]

theorem loopEvents_withoutRequestDelays (P : Providers) (m : String) (files : List File)
    (fuel : Nat) :
    ∀ (b k : Nat), files.length ≤ 5 * b + fuel →
      withoutRequestDelays (loopEvents P m files fuel (5 * b) k) =
        List.intercalate [Event.delay 2000]
          ((List.range' b (specBatchCount files.length - b)).map (specSegment files)) := by
  induction fuel with
  | zero =>
    intro b k h
    have hM : specBatchCount files.length - b = 0 := by
      have := (specBatchCount_pos_iff files.length b).not.mpr (by omega)
      omega
    rw [loopEvents_done P m files 0 b k (by omega), hM]
    rfl
  | succ fuel ih =>
    intro b k h
    by_cases hb : 5 * b < files.length
    · have hbM : b < specBatchCount files.length := (specBatchCount_pos_iff _ _).mpr hb
      rw [loopEvents_step P m files fuel b k hb, range'_of_lt b _ hbM, List.map_cons]
      have hseg : withoutRequestDelays
          (Event.batch (b + 1) (specBatchCount files.length) (specBatch files b) ::
            batchEvents P m (specBatch files b) k (specBatch files b)) = specSegment files b := by
        show withoutRequestDelays ([Event.batch (b + 1) (specBatchCount files.length)
          (specBatch files b)] ++ batchEvents P m (specBatch files b) k (specBatch files b)) = _
        rw [withoutRequestDelays_append, withoutRequestDelays_batchEvents]
        rfl
      have hsplit : ∀ tail : List Event,
          withoutRequestDelays
            (Event.batch (b + 1) (specBatchCount files.length) (specBatch files b) ::
              (batchEvents P m (specBatch files b) k (specBatch files b) ++ tail)) =
          specSegment files b ++ withoutRequestDelays tail := by
        intro tail
        rw [← hseg, ← withoutRequestDelays_append]
        rfl
      rw [hsplit, withoutRequestDelays_append, ih (b + 1) _ (by omega)]
      by_cases hnext : b + 1 < specBatchCount files.length
      · rw [range'_of_lt (b + 1) _ hnext, List.map_cons, intercalate_cons_cons]
        simp only [hnext, if_true]
        rfl
      · have hM : specBatchCount files.length - (b + 1) = 0 := by omega
        simp only [hnext, if_false, hM, List.range'_zero, List.map_nil, intercalate_singleton]
        simp [withoutRequestDelays, List.intercalate]
    · have hM : specBatchCount files.length - b = 0 := by
        have := (specBatchCount_pos_iff files.length b).not.mpr hb
        omega
      rw [loopEvents_done P m files _ b k (by omega), hM]
      rfl

theorem loopEvents_batchesOf (P : Providers) (m : String) (files : List File) (fuel : Nat) :
    ∀ (b k : Nat), files.length ≤ 5 * b + fuel →
      batchesOf (loopEvents P m files fuel (5 * b) k) =
        (List.range' b (specBatchCount files.length - b)).map (specBatch files) := by
  induction fuel with
  | zero =>
    intro b k h
    have hM : specBatchCount files.length - b = 0 := by
      have := (specBatchCount_pos_iff files.length b).not.mpr (by omega)
      omega
    rw [loopEvents_done P m files 0 b k (by omega), hM]
    rfl
  | succ fuel ih =>
    intro b k h
    by_cases hb : 5 * b < files.length
    · have hbM : b < specBatchCount files.length := (specBatchCount_pos_iff _ _).mpr hb
      rw [loopEvents_step P m files fuel b k hb, range'_of_lt b _ hbM, List.map_cons]
      simp only [batchesOf, batchesOf_append, batchesOf_batchEvents, List.nil_append]
      rw [ih (b + 1) _ (by omega)]
      by_cases hnext : b + 1 < specBatchCount files.length
      · simp [hnext, batchesOf]
      · simp [hnext, batchesOf]
    · have hM : specBatchCount files.length - b = 0 := by
        have := (specBatchCount_pos_iff files.length b).not.mpr hb
        omega
      rw [loopEvents_done P m files _ b k (by omega), hM]
      rfl

theorem loopEvents_delayCount (P : Providers) (m : String) (files : List File) (fuel : Nat) :
    ∀ (b k : Nat), files.length ≤ 5 * b + fuel →
      delayCount 2000 (loopEvents P m files fuel (5 * b) k) =
        specBatchCount files.length - b - 1 := by
  induction fuel with
  | zero =>
    intro b k h
    have hM : specBatchCount files.length - b = 0 := by
      have := (specBatchCount_pos_iff files.length b).not.mpr (by omega)
      omega
    rw [loopEvents_done P m files 0 b k (by omega), hM]
    rfl
  | succ fuel ih =>
    intro b k h
    by_cases hb : 5 * b < files.length
    · have hbM : b < specBatchCount files.length := (specBatchCount_pos_iff _ _).mpr hb
      rw [loopEvents_step P m files fuel b k hb]
      have hcons : ∀ tail : List Event,
          delayCount 2000 (Event.batch (b + 1) (specBatchCount files.length)
            (specBatch files b) :: tail) = delayCount 2000 tail := by
        intro tail; simp [delayCount]
      rw [hcons, delayCount_append, delayCount_append, delayCount_batchEvents,
        ih (b + 1) _ (by omega)]
      by_cases hnext : b + 1 < specBatchCount files.length
      · simp only [hnext, if_true]
        have : delayCount 2000 [Event.delay 2000] = 1 := rfl
        rw [this]; omega
      · simp only [hnext, if_false]
        have : delayCount 2000 [] = 0 := rfl
        rw [this]; omega
    · have hM : specBatchCount files.length - b = 0 := by
        have := (specBatchCount_pos_iff files.length b).not.mpr hb
        omega
      rw [loopEvents_done P m files _ b k (by omega), hM]
      rfl

theorem specBatch_length (files : List File) (k : Nat) :
    (specBatch files k).length = min 5 (files.length - 5 * k) := by
  unfold specBatch
  rw [List.length_take, List.length_drop]

theorem specBatches_flatten_from (files : List File) (d : Nat) :
    ∀ b : Nat, specBatchCount files.length - b = d →
      ((List.range' b d).map (specBatch files)).flatten = files.drop (5 * b) := by
  induction d with
  | zero =>
    intro b h
    have hn : files.length ≤ 5 * b := by
      have := (specBatchCount_pos_iff files.length b).not.mp (by omega)
      omega
    rw [List.drop_eq_nil_of_le hn]
    rfl
  | succ d ih =>
    intro b h
    rw [List.range'_succ, List.map_cons, List.flatten_cons, ih (b + 1) (by omega)]
    unfold specBatch
    have : 5 * (b + 1) = 5 * b + 5 := by omega
    rw [this, ← List.drop_drop]
    exact List.take_append_drop 5 _

theorem specBatches_getElem? (files : List File) (k : Nat)
    (h : k < specBatchCount files.length) :
    (specBatches files)[k]? = some (specBatch files k) := by
  unfold specBatches
  rw [List.getElem?_map, List.getElem?_range h]
  rfl

theorem resultsFrom_original (P : Providers) (m : String) (k : Nat) (fs : List File) :
    (resultsFrom P m k fs).map Result.original = fs.map File.originalname := by
  induction fs generalizing k with
  | nil => rfl
  | cons f rest ih => simp [resultsFrom, resultOf_original, ih]

/-- C7: a run over n files goes through ceil(n/5) batches, the consecutive
slices of 5 files of the input (the last one holding the n - 5 (ceil(n/5) - 1)
files that remain), whatever the analysis calls do; it waits 2000 ms exactly
once after each batch but the last, that is max(ceil(n/5) - 1, 0) times.
With 7 files there are two batches, of 5 and of 2 files, one wait of 2000 ms,
and 7 results in input order. -/
theorem processAnalysisFiles_batches (P : Providers) (job : Job) :
    ∃ (results : List Result) (st : RunState),
      processAnalysisFiles P job = some (Except.ok results, st) ∧
      batchesOf st.trace = specBatches job.files ∧
      (batchesOf st.trace).length = (job.files.length + 4) / 5 ∧
      (batchesOf st.trace).flatten = job.files ∧
      (∀ k, k + 1 < (job.files.length + 4) / 5 →
        ((batchesOf st.trace)[k]?).map List.length = some 5) ∧
      (0 < job.files.length →
        ((batchesOf st.trace)[(job.files.length + 4) / 5 - 1]?).map List.length =
          some (job.files.length - 5 * ((job.files.length + 4) / 5 - 1))) ∧
      delayCount 2000 st.trace = (job.files.length + 4) / 5 - 1 ∧
      withoutRequestDelays st.trace = specPacing job.files ∧
      (job.files.length = 7 →
        (batchesOf st.trace).map List.length = [5, 2] ∧
        delayCount 2000 st.trace = 1 ∧
        results.length = 7 ∧
        results.map Result.original = job.files.map File.originalname) := by
  have hb : batchesOf (loopEvents P job.analysisMode job.files job.files.length 0 0) =
      specBatches job.files := by
    have := loopEvents_batchesOf P job.analysisMode job.files job.files.length 0 0 (by omega)
    rw [Nat.mul_zero, Nat.sub_zero, ← List.range_eq_range'] at this
    exact this
  have hd : delayCount 2000 (loopEvents P job.analysisMode job.files job.files.length 0 0) =
      (job.files.length + 4) / 5 - 1 := by
    have := loopEvents_delayCount P job.analysisMode job.files job.files.length 0 0 (by omega)
    rw [Nat.mul_zero, Nat.sub_zero] at this
    exact this
  have hw : withoutRequestDelays
      (loopEvents P job.analysisMode job.files job.files.length 0 0) = specPacing job.files := by
    have := loopEvents_withoutRequestDelays P job.analysisMode job.files job.files.length 0 0
      (by omega)
    rw [Nat.mul_zero, Nat.sub_zero, ← List.range_eq_range'] at this
    exact this
  have hlen : (specBatches job.files).length = (job.files.length + 4) / 5 := by
    simp [specBatches, specBatchCount]
  have hflat : (specBatches job.files).flatten = job.files := by
    have := specBatches_flatten_from job.files (specBatchCount job.files.length) 0 rfl
    rw [← List.range_eq_range'] at this
    exact this
  refine ⟨_, _, processAnalysisFiles_eq P job, hb, by rw [hb, hlen], by rw [hb, hflat],
    ?_, ?_, hd, hw, ?_⟩
  · intro k hk
    show ((batchesOf (loopEvents _ _ _ _ _ _))[k]?).map List.length = some 5
    rw [hb, specBatches_getElem? job.files k (by unfold specBatchCount; omega)]
    simp only [Option.map_some', specBatch_length, Option.some.injEq]
    omega
  · intro hn
    show ((batchesOf (loopEvents _ _ _ _ _ _))[_]?).map List.length = _
    rw [hb, specBatches_getElem? job.files _ (by unfold specBatchCount; omega)]
    simp only [Option.map_some', specBatch_length, Option.some.injEq]
    omega
  · intro h7
    refine ⟨?_, ?_, ?_, resultsFrom_original _ _ _ _⟩
    · show (batchesOf (loopEvents _ _ _ _ _ _)).map List.length = [5, 2]
      rw [hb]
      unfold specBatches specBatchCount
      rw [h7]
      show [(specBatch job.files 0).length, (specBatch job.files 1).length] = [5, 2]
      rw [specBatch_length, specBatch_length, h7]
      rfl
    · show delayCount 2000 (loopEvents _ _ _ _ _ _) = 1
      rw [hd, h7]
    · rw [resultsFrom_length, h7]

/-- Witness of C7: seven files, every call succeeds. -/
theorem processAnalysisFiles_batches_witness :
    ∃ (results : List Result) (st : RunState),
      processAnalysisFiles (failingAt 7)
        (sampleJob 0 "j" ((List.range 7).map (fun i => sampleFile i "x.png"))) =
          some (Except.ok results, st) ∧
      (batchesOf st.trace).map List.length = [5, 2] ∧
      delayCount 2000 st.trace = 1 ∧ results.length = 7 := by
  obtain ⟨results, st, h1, _, _, _, _, _, _, _, h7⟩ :=
    processAnalysisFiles_batches (failingAt 7)
      (sampleJob 0 "j" ((List.range 7).map (fun i => sampleFile i "x.png")))
  obtain ⟨ha, hb, hc, _⟩ := h7 (by decide)
  exact ⟨results, st, h1, ha, hb, hc⟩

/-- C10, the code at the failing input: two images in one batch, the call
for the first one throws. The run makes no inter-request delay at all,
where n - ceil(n/5) = 1 delay is due after the first image; when both calls
return, that delay is made. -/
theorem no_delay_after_failed_image :
    (processAnalysisFiles (failingAt 0) twoImages).map (fun r => r.2.trace) =
      some [Event.batch 1 1 [sampleFile 0 "a.png", sampleFile 1 "b.png"],
            Event.call (sampleFile 0 "a.png"), Event.call (sampleFile 1 "b.png")] ∧
    (processAnalysisFiles (failingAt 0) twoImages).map
      (fun r => delayCount 500 r.2.trace) = some 0 ∧
    twoImages.files.length - specBatchCount twoImages.files.length = 1 ∧
    (processAnalysisFiles (failingAt 2) twoImages).map (fun r => r.2.trace) =
      some [Event.batch 1 1 [sampleFile 0 "a.png", sampleFile 1 "b.png"],
            Event.call (sampleFile 0 "a.png"), Event.delay 500,
            Event.call (sampleFile 1 "b.png")] := by
  decide

/-! ## Facts about runs of the worker -/

theorem runProcessQueue_eq (P : Providers) (F : FsFaults) (iso : String) (now : Int)
    (dir : List DirEntry) (cur : Job) :
    runProcessQueue P F iso now dir cur =
      if F.writeFile (saveFilename iso
          (analysisDataOf cur (resultsFrom P cur.analysisMode 0 cur.files))) then
        some (settle (Except.error "writeFile failed") { cur with status := Status.processing },
          if F.writeFileOpens (saveFilename iso
              (analysisDataOf cur (resultsFrom P cur.analysisMode 0 cur.files))) then
            truncateFile (saveFilename iso
              (analysisDataOf cur (resultsFrom P cur.analysisMode 0 cur.files))) now dir
          else dir)
      else
        some (settle (Except.ok (resultsFrom P cur.analysisMode 0 cur.files,
                generateTextOutput (resultsFrom P cur.analysisMode 0 cur.files)))
              { cur with status := Status.processing },
          writeFile (saveFilename iso
              (analysisDataOf cur (resultsFrom P cur.analysisMode 0 cur.files))) now
            (analysisDataOf cur (resultsFrom P cur.analysisMode 0 cur.files)) dir) := by
  unfold runProcessQueue processQueueTry
  rw [processAnalysisFiles_eq]
  simp only [saveAnalysis]
  by_cases hw : F.writeFile (saveFilename iso
      (analysisDataOf cur (resultsFrom P cur.analysisMode 0 cur.files))) = true
  · have hw2 : F.writeFile (saveFilename iso
        { id := cur.id, name := cur.name, timestamp := cur.timestamp,
          analysisMode := cur.analysisMode,
          results := resultsFrom P cur.analysisMode 0 cur.files,
          status := Status.completed,
          textOutput := generateTextOutput (resultsFrom P cur.analysisMode 0 cur.files) }) =
        true := hw
    simp only [hw, hw2, if_true]
    rfl
  · have hw2 : ¬ F.writeFile (saveFilename iso
        { id := cur.id, name := cur.name, timestamp := cur.timestamp,
          analysisMode := cur.analysisMode,
          results := resultsFrom P cur.analysisMode 0 cur.files,
          status := Status.completed,
          textOutput := generateTextOutput (resultsFrom P cur.analysisMode 0 cur.files) }) =
        true := hw
    simp only [hw, hw2, if_false]
    rfl

theorem mem_truncateFile {name : String} {now : Int} {dir : List DirEntry} {e : DirEntry}
    (h : e ∈ truncateFile name now dir) : e ∈ dir ∨ e.content = none := by
  unfold truncateFile at h
  rcases List.mem_append.mp h with h1 | h1
  · exact Or.inl (List.mem_filter.mp h1).1
  · rw [List.mem_singleton.mp h1]
    exact Or.inr rfl

theorem find?_filter_other (dir : List DirEntry) (name target : String)
    (hn : name ≠ target) :
    List.find? (fun e => e.name == target) (dir.filter (fun e => e.name != name)) =
      List.find? (fun e => e.name == target) dir := by
  induction dir with
  | nil => rfl
  | cons e rest ih =>
    by_cases hen : e.name = name
    · have h1 : (e.name != name) = false := by simp [hen]
      have h2 : (e.name == target) = false := by
        rw [hen]
        simpa using hn
      rw [List.filter_cons, h1, List.find?_cons, h2]
      simpa using ih
    · have h1 : (e.name != name) = true := by simp [hen]
      rw [List.filter_cons, h1]
      simp only [if_true, List.find?_cons]
      cases (e.name == target) with
      | true => rfl
      | false => simpa using ih

theorem getAnalysis_truncateFile (F : FsFaults) (name : String) (now : Int)
    (dir : List DirEntry) (id : String) (data : AnalysisData)
    (h : getAnalysis F (truncateFile name now dir) id = Except.ok data) :
    getAnalysis F dir id = Except.ok data := by
  unfold getAnalysis at h ⊢
  by_cases hr : F.readFile (id ++ ".json") = true
  · simp [hr] at h
  · simp only [hr] at h ⊢
    by_cases hn : id ++ ".json" = name
    · have hl : lookupFile (truncateFile name now dir) (id ++ ".json") =
          some { name := name, mtime := now, content := none } := by
        rw [hn]
        unfold lookupFile truncateFile
        rw [List.find?_append]
        have : List.find? (fun e => e.name == name)
            (dir.filter (fun e => e.name != name)) = none := by
          rw [List.find?_eq_none]
          intro e he
          have := (List.mem_filter.mp he).2
          simpa using this
        rw [this]
        simp
      rw [hl] at h
      simp at h
    · have hl : lookupFile (truncateFile name now dir) (id ++ ".json") =
          lookupFile dir (id ++ ".json") := by
        unfold lookupFile truncateFile
        rw [List.find?_append]
        have hlast : List.find? (fun e => e.name == id ++ ".json")
            [({ name := name, mtime := now, content := none } : DirEntry)] = none := by
          have hne : (name == id ++ ".json") = false := by
            simpa using fun h2 : name = id ++ ".json" => hn h2.symm
          simp [List.find?, hne]
        rw [hlast, Option.or_none]
        exact find?_filter_other dir name (id ++ ".json") (fun h2 => hn h2.symm)
      rw [hl] at h
      exact h

/-- Counterexample to C11 as stated: two images, both analysis calls return,
and the write of the record fails on a full disk. `processAnalysisFiles`
returns its two results, no exception escapes it, and the job still ends with
status `failed`; and the file that `fs.writeFile` had opened for the record
stays in the directory of saved records, cut short. -/
theorem job_fails_when_save_fails :
    (processAnalysisFiles (failingAt 5) { twoImages with status := Status.processing }).map
        (fun r => r.1.toOption) =
      some (some [{ original := "a.png", analysis := "ok", error := false },
                  { original := "b.png", analysis := "ok", error := false }]) ∧
    (runProcessQueue (failingAt 5) diskFull "1970-01-01T00:00:05.000Z" 5000 [] twoImages).map
        (fun r => (r.1.status, r.1.error, r.2)) =
      some (Status.failed, some "writeFile failed",
        [{ name := "1970-01-01T00-00-05-000Z_unnamed-analysis.json", mtime := 5000,
           content := none }]) := by
  decide

/-- C11, amended: a call of `processQueue` on an item comes back, and the
item gets status `failed` only if an exception escaped `processAnalysisFiles`
or `saveAnalysis`. Whenever it gets status `failed`, its `error` is the
message of that exception and no record of the job can be read from the
directory of saved records: the directory is as it was before the call, or it
differs by the one file that the failing `fs.writeFile` had opened, which is
left empty or cut short; every file in it is a file from before the call or
has no parsable content, and every record that `GET /api/analyses/:id` can
read afterwards it could read before. -/
theorem runProcessQueue_failed (P : Providers) (F : FsFaults) (iso : String) (now : Int)
    (dir : List DirEntry) (cur : Job) :
    ∃ (job : Job) (dir1 : List DirEntry),
      runProcessQueue P F iso now dir cur = some (job, dir1) ∧
      (job.status = Status.failed →
        ∃ message : String,
          ((∃ st, processAnalysisFiles P { cur with status := Status.processing } =
              some (Except.error message, st)) ∨
           (∃ results st, processAnalysisFiles P { cur with status := Status.processing } =
              some (Except.ok results, st) ∧
              (saveAnalysis F iso now (analysisDataOf cur results) dir).1 =
                Except.error message ∧
              (dir1 = dir ∨
                dir1 = truncateFile (saveFilename iso (analysisDataOf cur results)) now dir))) ∧
          job.error = some message ∧
          (∀ e ∈ dir1, e ∈ dir ∨ e.content = none) ∧
          (∀ (G : FsFaults) (id : String) (data : AnalysisData),
            getAnalysis G dir1 id = Except.ok data → getAnalysis G dir id = Except.ok data)) := by
  rw [runProcessQueue_eq]
  by_cases hw : F.writeFile (saveFilename iso
      (analysisDataOf cur (resultsFrom P cur.analysisMode 0 cur.files))) = true
  · simp only [hw, if_true]
    have hsave : (saveAnalysis F iso now
        (analysisDataOf cur (resultsFrom P cur.analysisMode 0 cur.files)) dir).1 =
        Except.error "writeFile failed" := by
      simp only [saveAnalysis, hw, if_true]
    by_cases ho : F.writeFileOpens (saveFilename iso
        (analysisDataOf cur (resultsFrom P cur.analysisMode 0 cur.files))) = true
    · simp only [ho, if_true]
      exact ⟨_, _, rfl, fun _ => ⟨"writeFile failed",
        Or.inr ⟨resultsFrom P cur.analysisMode 0 cur.files, _,
          processAnalysisFiles_eq P { cur with status := Status.processing }, hsave,
          Or.inr rfl⟩,
        rfl, fun e he => mem_truncateFile he,
        fun G id data hg => getAnalysis_truncateFile G _ now dir id data hg⟩⟩
    · simp only [ho, if_false]
      exact ⟨_, _, rfl, fun _ => ⟨"writeFile failed",
        Or.inr ⟨resultsFrom P cur.analysisMode 0 cur.files, _,
          processAnalysisFiles_eq P { cur with status := Status.processing }, hsave,
          Or.inl rfl⟩,
        rfl, fun e he => Or.inl he, fun G id data hg => hg⟩⟩
  · simp only [hw, if_false]
    refine ⟨_, _, rfl, fun hfailed => ?_⟩
    exact absurd hfailed (by simp [settle])

/-- Witness of C11: a run whose write fails on a full disk, with an older
record in the directory; the item ends with status `failed`, and the older
record is all that can be read afterwards. -/
theorem runProcessQueue_failed_witness :
    ∃ message : String,
      (runProcessQueue (failingAt 5) diskFull "1970-01-01T00:00:05.000Z" 5000 lateDir
        twoImages).map (fun r => r.1.error) = some (some message) ∧
      ∀ e, (runProcessQueue (failingAt 5) diskFull "1970-01-01T00:00:05.000Z" 5000 lateDir
        twoImages).map (fun r => r.2) = some e → ∀ x ∈ e, x ∈ lateDir ∨ x.content = none := by
  obtain ⟨job, dir1, hrun, hfail⟩ :=
    runProcessQueue_failed (failingAt 5) diskFull "1970-01-01T00:00:05.000Z" 5000 lateDir
      twoImages
  have hst : job.status = Status.failed := by
    have h : (runProcessQueue (failingAt 5) diskFull "1970-01-01T00:00:05.000Z" 5000 lateDir
        twoImages).map (fun r => r.1.status) = some Status.failed := by decide
    rw [hrun] at h
    simpa using h
  obtain ⟨message, _, herr, hmem, _⟩ := hfail hst
  refine ⟨message, by rw [hrun]; simp [herr], ?_⟩
  intro e he x hx
  rw [hrun] at he
  simp only [Option.map_some', Option.some.injEq] at he
  exact hmem x (he ▸ hx)

/-! ## Facts about executions of the server -/

theorem step_of_perform {a : Action} {s t : ServerState} (h : perform a s = some t) :
    Step s t := by
  cases a with
  | submit files analysisMode analysisName uuid iso =>
    simp only [perform, Option.some.injEq] at h
    exact h ▸ Step.submit s files analysisMode analysisName uuid iso
  | remove analysisId =>
    simp only [perform, Option.some.injEq] at h
    exact h ▸ Step.remove s analysisId
  | finish outcome =>
    unfold perform at h
    by_cases hc : s.current.isSome = true
    · simp only [hc, if_true, Option.some.injEq] at h
      exact h ▸ Step.finish s outcome hc
    · simp [hc] at h
  | timer =>
    unfold perform at h
    by_cases ht : 0 < s.timers
    · simp only [ht, if_true, Option.some.injEq] at h
      exact h ▸ Step.timer s ht
    · simp [ht] at h

theorem busy_of_current {s : ServerState} (h : QueueInv s) {r : Nat} (hc : s.current = some r) :
    ∃ (cur : Job) (rest : List Job), s.isProcessing = true ∧ s.analysisQueue = cur :: rest ∧
      cur.ref = r ∧ cur.status = Status.processing := by
  obtain ⟨_, ⟨hbusy, cur, rest, hq, hcur, hst, _⟩ | ⟨_, hnone, _⟩⟩ := h
  · refine ⟨cur, rest, hbusy, hq, ?_, hst⟩
    rw [hcur] at hc
    exact Option.some.inj hc
  · rw [hnone] at hc
    exact absurd hc (by simp)

theorem request_keeps_head {a : Action} {s t : ServerState} {cur : Job} {rest : List Job}
    (hbusy : s.isProcessing = true) (hq : s.analysisQueue = cur :: rest)
    (hst : cur.status = Status.processing) (ha : a.isRequest = true)
    (h : perform a s = some t) :
    ∃ rest1 : List Job, t.analysisQueue = cur :: rest1 ∧ t.current = s.current ∧
      t.isProcessing = true := by
  cases a with
  | submit files analysisMode analysisName uuid iso =>
    simp only [perform, Option.some.injEq] at h
    by_cases hf : files = []
    · subst hf
      rw [postAnalyze_empty] at h
      exact ⟨rest, h ▸ hq, h ▸ rfl, h ▸ hbusy⟩
    · rw [postAnalyze_state _ _ _ _ _ _ hf, hbusy] at h
      simp only [if_true] at h
      refine ⟨rest ++ [newItem files analysisMode analysisName uuid iso s], ?_, h ▸ rfl,
        h ▸ hbusy⟩
      rw [← h]
      show s.analysisQueue ++ [_] = _
      rw [hq]; rfl
  | remove analysisId =>
    simp only [perform, Option.some.injEq] at h
    rcases deleteQueueItem_cases analysisId s with
      ⟨_, _, heq⟩ | ⟨before, item, after, hq2, _, _, ⟨_, _, heq⟩ | ⟨hne, _, heq⟩⟩
    · rw [heq] at h
      exact ⟨rest, h ▸ hq, h ▸ rfl, h ▸ hbusy⟩
    · rw [heq] at h
      exact ⟨rest, h ▸ hq, h ▸ rfl, h ▸ hbusy⟩
    · rw [heq] at h
      cases before with
      | nil =>
        rw [hq] at hq2
        injection hq2 with h1 h2
        exact absurd (h1 ▸ hst) hne
      | cons b before2 =>
        rw [hq] at hq2
        injection hq2 with h1 h2
        exact ⟨before2 ++ after, by rw [← h, h1]; rfl, h ▸ rfl, h ▸ hbusy⟩
  | finish outcome => exact absurd ha (by simp [Action.isRequest])
  | timer => exact absurd ha (by simp [Action.isRequest])

theorem requests_keep_head (acts : List Action) :
    ∀ {s t : ServerState} {cur : Job} {rest : List Job},
      QueueInv s → s.isProcessing = true → s.analysisQueue = cur :: rest →
      cur.status = Status.processing → (∀ a ∈ acts, a.isRequest = true) →
      run acts s = some t →
      ∃ rest1 : List Job, t.analysisQueue = cur :: rest1 ∧ t.current = s.current ∧
        t.isProcessing = true ∧ QueueInv t := by
  induction acts with
  | nil =>
    intro s t cur rest hinv hbusy hq _ _ h
    simp only [run, Option.some.injEq] at h
    exact ⟨rest, h ▸ hq, h ▸ rfl, h ▸ hbusy, h ▸ hinv⟩
  | cons a more ih =>
    intro s t cur rest hinv hbusy hq hst hreq h
    unfold run at h
    cases hp : perform a s with
    | none => simp [hp] at h
    | some u =>
      simp only [hp] at h
      obtain ⟨rest1, hq1, hcur1, hbusy1⟩ :=
        request_keeps_head hbusy hq hst (hreq a (List.mem_cons_self _ _)) hp
      have hinv1 : QueueInv u := queueInv_step hinv (step_of_perform hp)
      obtain ⟨rest2, hq2, hcur2, hbusy2, hinv2⟩ :=
        ih hinv1 hbusy1 hq1 hst (fun b hb => hreq b (List.mem_cons_of_mem _ hb)) h
      exact ⟨rest2, hq2, hcur2.trans hcur1, hbusy2, hinv2⟩

/-- C12: let `processQueue` have started on the head of the queue of a
reachable state, and let any submissions and removals follow while it runs.
When the call then finishes, with success or failure, `analysisQueue.shift()`
removes the very item that was processed, the items behind it stay as they
are and in their order, `isProcessing` is reset, and the next call of
`processQueue` picks up the item that is then first. -/
theorem finish_removes_processed_job (s t : ServerState) (r : Nat) (acts : List Action)
    (outcome : Except String (List Result × String))
    (hs : Reachable s) (hcur : s.current = some r)
    (hreq : ∀ a ∈ acts, a.isRequest = true) (hrun : run acts s = some t) :
    ∃ (cur : Job) (rest rest1 : List Job),
      s.analysisQueue = cur :: rest ∧ cur.ref = r ∧ cur.status = Status.processing ∧
      t.analysisQueue = cur :: rest1 ∧
      perform (Action.finish outcome) t = some (processQueueFinish outcome t) ∧
      (processQueueFinish outcome t).analysisQueue = rest1 ∧
      (processQueueFinish outcome t).isProcessing = false ∧
      (∀ (next : Job) (rest2 : List Job), rest1 = next :: rest2 →
        (processQueue (processQueueFinish outcome t)).analysisQueue =
          { next with status := Status.processing } :: rest2 ∧
        (processQueue (processQueueFinish outcome t)).current = some next.ref) := by
  have hinv := queueInv_of_reachable hs
  obtain ⟨cur, rest, hbusy, hq, href, hst⟩ := busy_of_current hinv hcur
  obtain ⟨rest1, hq1, hcur1, _, hinv1⟩ := requests_keep_head acts hinv hbusy hq hst hreq hrun
  have hsome : t.current.isSome = true := by rw [hcur1, hcur]; rfl
  obtain ⟨cur2, rest2, hq2, _, _, _, hfin⟩ := processQueueFinish_running outcome t hinv1 hsome
  have hrest : rest2 = rest1 := by
    rw [hq1] at hq2
    injection hq2 with _ h2
    exact h2.symm
  subst hrest
  have hinvf := queueInv_processQueueFinish outcome t hinv1 hsome
  refine ⟨cur, rest, rest2, hq, href, hst, hq1, ?_, ?_, ?_, ?_⟩
  · simp [perform, hsome]
  · rw [hfin]
  · rw [hfin]
  · intro next rest3 hnext
    have hqf : (processQueueFinish outcome t).analysisQueue = next :: rest3 := by
      rw [hfin]; exact hnext
    have hidle : (processQueueFinish outcome t).isProcessing = false := by rw [hfin]
    rw [processQueue_idle_cons _ next rest3 hidle hqf hinvf.1]
    exact ⟨rfl, rfl⟩

/-- Witness of C12: the first job runs, the second waits, a third is
submitted while the first runs. -/
theorem finish_removes_processed_job_witness :
    ∃ (cur : Job) (rest1 : List Job),
      cur.ref = 0 ∧
      (postAnalyze [sampleFile 2 "c.png"] none none "job-3" "1970-01-01T00:00:02.000Z"
        oneRunningOneQueued).2.analysisQueue = cur :: rest1 ∧
      (processQueueFinish (Except.error "writeFile failed")
        (postAnalyze [sampleFile 2 "c.png"] none none "job-3" "1970-01-01T00:00:02.000Z"
          oneRunningOneQueued).2).analysisQueue = rest1 := by
  obtain ⟨cur, _, rest1, _, href, _, hq, _, hfin, _, _⟩ :=
    finish_removes_processed_job oneRunningOneQueued
      (postAnalyze [sampleFile 2 "c.png"] none none "job-3" "1970-01-01T00:00:02.000Z"
        oneRunningOneQueued).2
      0 [Action.submit [sampleFile 2 "c.png"] none none "job-3" "1970-01-01T00:00:02.000Z"]
      (Except.error "writeFile failed")
      (Reachable.step (Reachable.step Reachable.init (Step.submit _ _ _ _ _ _))
        (Step.submit _ _ _ _ _ _))
      (by decide) (by simp [Action.isRequest]) rfl
  exact ⟨cur, rest1, href, hq, hfin⟩

/-- One action on the state without timer identities: a finishing call leaves
the worker idle with one more timer pending, and a job starts only by a timer
or a submission. -/
theorem perform_starts_job (a : Action) (s t : ServerState)
    (h : perform a s = some t) :
    (∀ outcome, a = Action.finish outcome →
      t.isProcessing = false ∧ t.timers = s.timers + 1) ∧
    (s.isProcessing = false → t.isProcessing = true →
      (a = Action.timer ∧ 0 < s.timers) ∨
      ∃ files analysisMode analysisName uuid iso,
        a = Action.submit files analysisMode analysisName uuid iso) := by
  cases a with
  | submit files analysisMode analysisName uuid iso =>
    exact ⟨(fun _ ha => by cases ha), fun _ _ => Or.inr ⟨_, _, _, _, _, rfl⟩⟩
  | remove analysisId =>
    simp only [perform, Option.some.injEq] at h
    refine ⟨(fun _ ha => by cases ha), fun hidle hbusy => ?_⟩
    have hsame : t.isProcessing = s.isProcessing := by
      rcases deleteQueueItem_cases analysisId s with
        ⟨_, _, heq⟩ | ⟨_, _, _, _, _, _, ⟨_, _, heq⟩ | ⟨_, _, heq⟩⟩ <;>
      · rw [heq] at h
        rw [← h]
    rw [hsame, hidle] at hbusy
    exact absurd hbusy (by simp)
  | finish outcome =>
    unfold perform at h
    by_cases hc : s.current.isSome = true
    · simp only [hc, if_true, Option.some.injEq] at h
      have hfin : t.isProcessing = false ∧ t.timers = s.timers + 1 := by
        rw [← h]
        unfold processQueueFinish
        cases hcur : s.current with
        | none => rw [hcur] at hc; exact absurd hc (by simp)
        | some r => exact ⟨rfl, rfl⟩
      refine ⟨fun _ _ => hfin, fun _ hbusy => ?_⟩
      rw [hfin.1] at hbusy
      exact absurd hbusy (by simp)
    · simp [hc] at h
  | timer =>
    unfold perform at h
    by_cases ht : 0 < s.timers
    · exact ⟨(fun _ ha => by cases ha), fun _ _ => Or.inl ⟨rfl, ht⟩⟩
    · simp [ht] at h

theorem processQueue_timers (s : ServerState) : (processQueue s).timers = s.timers := by
  unfold processQueue
  by_cases h : (s.isProcessing || s.analysisQueue.length == 0) = true
  · simp [h]
  · simp only [h]
    cases s.analysisQueue.head? <;> rfl

theorem postAnalyze_timers (files : List File) (analysisMode analysisName : Option String)
    (uuid iso : String) (s : ServerState) :
    (postAnalyze files analysisMode analysisName uuid iso s).2.timers = s.timers := by
  by_cases hf : files = []
  · subst hf; rfl
  · rw [postAnalyze_state _ _ _ _ _ _ hf]
    cases s.isProcessing
    · simp only [Bool.false_eq_true, if_false]
      rw [processQueue_timers]; rfl
    · rfl

theorem deleteQueueItem_fields (analysisId : String) (s : ServerState) :
    (deleteQueueItem analysisId s).2.timers = s.timers ∧
    (deleteQueueItem analysisId s).2.isProcessing = s.isProcessing ∧
    (deleteQueueItem analysisId s).2.current = s.current := by
  rcases deleteQueueItem_cases analysisId s with
    ⟨_, _, heq⟩ | ⟨_, _, _, _, _, _, ⟨_, _, heq⟩ | ⟨_, _, heq⟩⟩ <;>
  · rw [heq]
    exact ⟨rfl, rfl, rfl⟩

theorem timedInv_initial : TimedInv initialTimed :=
  ⟨rfl, fun k hk => by simp [initialTimed] at hk⟩

theorem timedInv_performTimed {a : TimedAction} {ts ts1 : TimedState} (hinv : TimedInv ts)
    (h : performTimed a ts = some ts1) :
    TimedInv ts1 ∧ perform a.toAction ts.server = some ts1.server := by
  obtain ⟨hlen, hlt⟩ := hinv
  cases a with
  | submit files analysisMode analysisName uuid iso =>
    simp only [performTimed, Option.some.injEq] at h
    subst h
    exact ⟨⟨by rw [postAnalyze_timers]; exact hlen, hlt⟩, rfl⟩
  | remove analysisId =>
    simp only [performTimed, Option.some.injEq] at h
    subst h
    exact ⟨⟨by rw [(deleteQueueItem_fields analysisId ts.server).1]; exact hlen, hlt⟩, rfl⟩
  | finish outcome =>
    unfold performTimed at h
    by_cases hc : ts.server.current.isSome = true
    · simp only [hc, if_true, Option.some.injEq] at h
      subst h
      have htim : (processQueueFinish outcome ts.server).timers = ts.server.timers + 1 := by
        unfold processQueueFinish
        cases hcur : ts.server.current with
        | none => rw [hcur] at hc; exact absurd hc (by simp)
        | some r => rfl
      refine ⟨⟨?_, ?_⟩, by simp [TimedAction.toAction, perform, hc]⟩
      · show (ts.pending ++ [ts.finished]).length = _
        rw [htim, List.length_append, hlen]; rfl
      · intro k hk
        show k < ts.finished + 1
        rcases List.mem_append.mp hk with h1 | h1
        · exact Nat.lt_succ_of_lt (hlt k h1)
        · rw [List.mem_singleton.mp h1]; exact Nat.lt_succ_self _
    · simp [hc] at h
  | fire k =>
    unfold performTimed at h
    by_cases hk : k ∈ ts.pending
    · simp only [hk, if_true, Option.some.injEq] at h
      subst h
      have hpos : 0 < ts.server.timers := by
        rw [← hlen]; exact List.length_pos_of_mem hk
      refine ⟨⟨?_, ?_⟩, by simp [TimedAction.toAction, perform, hpos]⟩
      · show (ts.pending.erase k).length = _
        rw [processQueue_timers, List.length_erase_of_mem hk, hlen]
      · intro j hj
        exact hlt j (List.mem_of_mem_erase hj)
    · simp [hk] at h

theorem timedInv_runTimed (acts : List TimedAction) :
    ∀ {ts ts1 : TimedState}, TimedInv ts → runTimed acts ts = some ts1 → TimedInv ts1 := by
  induction acts with
  | nil =>
    intro ts ts1 hinv h
    simp only [runTimed, Option.some.injEq] at h
    exact h ▸ hinv
  | cons a rest ih =>
    intro ts ts1 hinv h
    unfold runTimed at h
    cases hp : performTimed a ts with
    | none => simp [hp] at h
    | some u =>
      simp only [hp] at h
      exact ih (timedInv_performTimed hinv hp).1 h

theorem idle_until_timer (n : Nat) (acts : List TimedAction) :
    ∀ (ts ts1 : TimedState), ts.server.isProcessing = false → ts.server.current = none →
      ts.pending = [n] → runTimed acts ts = some ts1 →
      (∀ b ∈ acts, b.isSubmit = false ∧ b.isFire n = false) →
      ts1.server.isProcessing = false ∧ ts1.pending = [n] := by
  induction acts with
  | nil =>
    intro ts ts1 hidle _ hpend h _
    simp only [runTimed, Option.some.injEq] at h
    exact h ▸ ⟨hidle, hpend⟩
  | cons a rest ih =>
    intro ts ts1 hidle hcur hpend h hno
    have ha := hno a (List.mem_cons_self _ _)
    have hrest : ∀ b ∈ rest, b.isSubmit = false ∧ b.isFire n = false :=
      fun b hb => hno b (List.mem_cons_of_mem _ hb)
    unfold runTimed at h
    cases hp : performTimed a ts with
    | none => simp [hp] at h
    | some u =>
      simp only [hp] at h
      cases a with
      | submit files analysisMode analysisName uuid iso =>
        exact absurd ha.1 (by simp [TimedAction.isSubmit])
      | remove analysisId =>
        simp only [performTimed, Option.some.injEq] at hp
        subst hp
        obtain ⟨_, h2, h3⟩ := deleteQueueItem_fields analysisId ts.server
        exact ih { server := (deleteQueueItem analysisId ts.server).2, pending := ts.pending,
                   finished := ts.finished } ts1 (h2.trans hidle) (h3.trans hcur) hpend h hrest
      | finish outcome =>
        unfold performTimed at hp
        simp [hcur] at hp
      | fire k =>
        unfold performTimed at hp
        by_cases hk : k ∈ ts.pending
        · rw [hpend, List.mem_singleton] at hk
          have := ha.2
          simp [TimedAction.isFire, hk] at this
        · simp [hk] at hp

/-- Counterexample to C13 as stated, in two executions. In the first, job 1
ends while job 2 waits, which sets timer 0; before it fires a third job is
submitted, the handler of `POST /analyze` finds `isProcessing` false and calls
`processQueue`, and job 2 is processing while timer 0 is pending. In the
second, job 2 ends as well, which sets timer 1; then timer 0, set at the end
of the call for job 1, fires and starts job 3 while timer 1 is pending. -/
theorem next_job_starts_before_timer :
    (runTimed (twoFinished.take 3) initialTimed).map
        (fun ts => (ts.server.isProcessing, ts.pending,
          ts.server.analysisQueue.map (fun j => (j.id, j.status)))) =
      some (false, [0], [("job-2", Status.queued)]) ∧
    (runTimed (twoFinished.take 4) initialTimed).map
        (fun ts => (ts.server.isProcessing, ts.pending,
          ts.server.analysisQueue.map (fun j => (j.id, j.status)))) =
      some (true, [0], [("job-2", Status.processing), ("job-3", Status.queued)]) ∧
    (runTimed twoFinished initialTimed).map
        (fun ts => (ts.server.isProcessing, ts.pending,
          ts.server.analysisQueue.map (fun j => (j.id, j.status)))) =
      some (false, [0, 1], [("job-3", Status.queued)]) ∧
    (runTimed (twoFinished ++ [TimedAction.fire 0]) initialTimed).map
        (fun ts => (ts.server.isProcessing, ts.pending,
          ts.server.analysisQueue.map (fun j => (j.id, j.status)))) =
      some (true, [1], [("job-3", Status.processing)]) :=
  ⟨by decide, by decide, by decide, by decide⟩

/-- C13, amended: in every execution, a call of `processQueue` that ends
leaves the worker idle and sets a timer of its own, and a job starts
processing only at a submission or at the firing of a pending timer, which
was set at the end of this or of an earlier call; a removal or an ending call
never starts one. When the timer set at the end of a call is the only one
pending, no job starts before it fires unless a submission arrives. -/
theorem job_starts_only_by_pending_timer_or_submit (acts : List TimedAction)
    (ts ts1 : TimedState) (a : TimedAction)
    (hrun : runTimed acts initialTimed = some ts) (h : performTimed a ts = some ts1) :
    (∀ outcome, a = TimedAction.finish outcome →
      ts1.server.isProcessing = false ∧ ts.finished ∉ ts.pending ∧
      ts1.pending = ts.pending ++ [ts.finished] ∧
      (ts.pending = [] → ∀ (acts2 : List TimedAction) (ts2 : TimedState),
        runTimed acts2 ts1 = some ts2 →
        (∀ b ∈ acts2, b.isSubmit = false ∧ b.isFire ts.finished = false) →
        ts2.server.isProcessing = false ∧ ts2.pending = [ts.finished])) ∧
    (ts.server.isProcessing = false → ts1.server.isProcessing = true →
      (∃ files analysisMode analysisName uuid iso,
        a = TimedAction.submit files analysisMode analysisName uuid iso) ∨
      (∃ k, a = TimedAction.fire k ∧ k ∈ ts.pending ∧ k < ts.finished)) := by
  have hinv : TimedInv ts := timedInv_runTimed acts timedInv_initial hrun
  obtain ⟨_, hperf⟩ := timedInv_performTimed hinv h
  obtain ⟨hfin, hstart⟩ := perform_starts_job a.toAction ts.server ts1.server hperf
  constructor
  · intro outcome ha
    subst ha
    have hidle1 := (hfin outcome rfl).1
    unfold performTimed at h
    by_cases hc : ts.server.current.isSome = true
    · simp only [hc, if_true, Option.some.injEq] at h
      have hpend1 : ts1.pending = ts.pending ++ [ts.finished] := by rw [← h]
      have hcur1 : ts1.server.current = none := by
        rw [← h]
        show (processQueueFinish outcome ts.server).current = none
        unfold processQueueFinish
        cases hcur : ts.server.current with
        | none => rw [hcur] at hc; exact absurd hc (by simp)
        | some r => rfl
      refine ⟨hidle1, fun hmem => Nat.lt_irrefl _ (hinv.2 _ hmem), hpend1, ?_⟩
      intro hnone acts2 ts2 hrun2 hno
      exact idle_until_timer ts.finished acts2 ts1 ts2 hidle1 hcur1
        (by rw [hpend1, hnone]; rfl) hrun2 hno
    · simp [hc] at h
  · intro hidle hbusy
    cases a with
    | submit files analysisMode analysisName uuid iso =>
      exact Or.inl ⟨_, _, _, _, _, rfl⟩
    | remove analysisId =>
      rcases hstart hidle hbusy with ⟨ht, _⟩ | ⟨_, _, _, _, _, hs⟩
      · simp [TimedAction.toAction] at ht
      · simp [TimedAction.toAction] at hs
    | finish outcome =>
      rcases hstart hidle hbusy with ⟨ht, _⟩ | ⟨_, _, _, _, _, hs⟩
      · simp [TimedAction.toAction] at ht
      · simp [TimedAction.toAction] at hs
    | fire k =>
      unfold performTimed at h
      by_cases hk : k ∈ ts.pending
      · exact Or.inr ⟨k, rfl, hk, hinv.2 k hk⟩
      · simp [hk] at h

/-- Witness of C13: after the first two jobs the timers of both ended calls
are pending and the third job waits; the older timer fires and starts the
third job while the timer of the call that ended last is still pending. -/
theorem job_starts_only_by_pending_timer_or_submit_witness :
    (runTimed twoFinished initialTimed).map
        (fun ts => (ts.server.isProcessing, ts.pending, ts.finished)) = some (false, [0, 1], 2) ∧
    (runTimed (twoFinished ++ [TimedAction.fire 0]) initialTimed).map
        (fun ts => (ts.server.isProcessing, ts.pending,
          ts.server.analysisQueue.map (fun j => (j.id, j.status)))) =
      some (true, [1], [("job-3", Status.processing)]) ∧
    ((∃ files analysisMode analysisName uuid iso,
        TimedAction.fire 0 = TimedAction.submit files analysisMode analysisName uuid iso) ∨
      ∃ k, TimedAction.fire 0 = TimedAction.fire k ∧ k ∈ [0, 1] ∧ k < 2) := by
  refine ⟨by decide, by decide, ?_⟩
  cases hts : runTimed twoFinished initialTimed with
  | none => exact absurd hts (by decide)
  | some ts =>
    have hp : ts.pending = [0, 1] ∧ ts.finished = 2 ∧ ts.server.isProcessing = false := by
      have h : (runTimed twoFinished initialTimed).map
          (fun ts => (ts.pending, ts.finished, ts.server.isProcessing)) =
          some ([0, 1], 2, false) := by decide
      rw [hts] at h
      simpa using h
    cases hts1 : performTimed (TimedAction.fire 0) ts with
    | none =>
      unfold performTimed at hts1
      simp [hp.1] at hts1
    | some ts1 =>
      have hbusy : ts1.server.isProcessing = true := by
        have h : ((runTimed twoFinished initialTimed).bind
            (performTimed (TimedAction.fire 0))).map (fun t => t.server.isProcessing) =
            some true := by decide
        rw [hts, Option.some_bind, hts1] at h
        simpa using h
      have := (job_starts_only_by_pending_timer_or_submit twoFinished ts ts1
        (TimedAction.fire 0) hts hts1).2 hp.2.2 hbusy
      rw [hp.1, hp.2.1] at this
      exact this

end AutoImageNamer
